import Mathlib

/-!
# Verification of the merge-tool core

Shallow embedding of the algorithmic core of the merge/diff tool:
the `difflib.SequenceMatcher`-based line diff (`src/diff_engine.py`),
the heuristic line aligner (`LineAligner`), the three-way merge
conflict detector/resolver (`src/gui/three_way_merge.py`), the folder
sync conflict handling (`src/utils/sync_manager.py`) and the directory
comparator (`DirectoryDiffEngine`).

Python strings are modelled as Lean `String`s (with list-of-char
views where string surgery is needed), Python floats as exact
rationals `ℚ`, and filesystem effects as explicit oracle parameters.
-/

namespace MergeTool

/-! ## SequenceMatcher (Python difflib, called as `SequenceMatcher(None, a, b)`)

The repository always constructs the matcher with `isjunk=None` and the
default `autojunk=True`.  Hence the junk set `bjunk` is empty (the two
junk-extension loops of `find_longest_match` never fire and are omitted),
while the autojunk "popular element" rule is active: for `len(b) >= 200`,
elements occurring more than `len(b) // 100 + 1` times are dropped from
the `b2j` index. -/

variable {α : Type} [DecidableEq α] [Inhabited α]

/-- `b2j` lookup of difflib's `__chain_b`: the ascending list of positions
of `x` in `b`, or `[]` when `x` is autojunk-popular. -/
def b2jGet (b : List α) (x : α) : List Nat :=
  let ps := (List.range b.length).filter (fun j => b.get? j = some x)
  if 200 ≤ b.length ∧ b.length / 100 + 1 < ps.length then [] else ps

/-- One row of `find_longest_match`'s main loop: iterate over the positions
`js` of `a[i]` in `b` (already restricted to `[blo, bhi)`), building the
new `j2len` dictionary (modelled as a total function, absent keys ↦ 0)
from the previous row's dictionary `prev`, and updating the best match.
Python computes `k = newj2len[j] = j2len.get(j-1, 0) + 1` and, when
`k > bestsize`, sets `best = (i-k+1, j-k+1, k)`. -/
def innerFold (i : Nat) (prev : Nat → Nat) :
    List Nat → (Nat → Nat) → Nat × Nat × Nat → (Nat → Nat) × (Nat × Nat × Nat)
  | [], newj2len, best => (newj2len, best)
  | j :: js, newj2len, best =>
    let k := (if j = 0 then 0 else prev (j - 1)) + 1
    let newj2len' := fun j' => if j' = j then k else newj2len j'
    let best' := if best.2.2 < k then (i + 1 - k, j + 1 - k, k) else best
    innerFold i prev js newj2len' best'

/-- The main loop of `find_longest_match` over the rows `i ∈ [alo, ahi)`.
`j2len` is the previous row's dictionary; each row starts from an empty
`newj2len` (the all-zero function). -/
def mainLoop (a b : List α) (blo bhi : Nat) :
    List Nat → (Nat → Nat) → Nat × Nat × Nat → Nat × Nat × Nat
  | [], _, best => best
  | i :: is, j2len, best =>
    let js := (b2jGet b (a.getD i default)).filter (fun j => blo ≤ j ∧ j < bhi)
    let r := innerFold i j2len js (fun _ => 0) best
    mainLoop a b blo bhi is r.1 r.2

/-- Backward extension of the best match (`while besti > alo and bestj > blo
and a[besti-1] == b[bestj-1]`); the `isbjunk` test is vacuous as `bjunk = ∅`.
Each loop iteration decrements `besti` by one, so the loop is written as
structural recursion on `besti` (at `besti = 0` the `besti > alo` guard is
false and the loop exits). -/
def extBack (a b : List α) (alo blo : Nat) :
    Nat → Nat → Nat → Nat × Nat × Nat
  | 0, bestj, bestsize => (0, bestj, bestsize)
  | besti + 1, bestj, bestsize =>
    if alo < besti + 1 ∧ blo < bestj ∧
        a.getD besti default = b.getD (bestj - 1) default then
      extBack a b alo blo besti (bestj - 1) (bestsize + 1)
    else
      (besti + 1, bestj, bestsize)

/-- Forward extension of the best match (`while besti+bestsize < ahi and
bestj+bestsize < bhi and a[besti+bestsize] == b[bestj+bestsize]`), written
as structural recursion on the quantity `ahi - (besti + bestsize)`, which
the loop decrements by exactly one per iteration; the entry point
`extFwd` passes that exact value, and when it is `0` the loop guard
`besti + bestsize < ahi` is false anyway, so the semantics match the
`while` loop exactly. -/
def extFwdAux (a b : List α) (ahi bhi besti bestj : Nat) : Nat → Nat → Nat
  | 0, bestsize => bestsize
  | fuel + 1, bestsize =>
    if besti + bestsize < ahi ∧ bestj + bestsize < bhi ∧
        a.getD (besti + bestsize) default = b.getD (bestj + bestsize) default
      then extFwdAux a b ahi bhi besti bestj fuel (bestsize + 1)
    else bestsize

/-- The forward extension loop; see `extFwdAux`. -/
def extFwd (a b : List α) (ahi bhi : Nat) (besti bestj bestsize : Nat) :
    Nat :=
  extFwdAux a b ahi bhi besti bestj (ahi - (besti + bestsize)) bestsize

/-- The two (non-junk) extension passes applied to the main loop's best
match. -/
def flmPost (a b : List α) (alo ahi blo bhi : Nat) (best : Nat × Nat × Nat) :
    Nat × Nat × Nat :=
  let e := extBack a b alo blo best.1 best.2.1 best.2.2
  (e.1, e.2.1, extFwd a b ahi bhi e.1 e.2.1 e.2.2)

/-- `SequenceMatcher.find_longest_match(alo, ahi, blo, bhi)`. -/
def findLongestMatch (a b : List α) (alo ahi blo bhi : Nat) : Nat × Nat × Nat :=
  flmPost a b alo ahi blo bhi
    (mainLoop a b blo bhi (List.range' alo (ahi - alo)) (fun _ => 0)
      (alo, blo, 0))

/-- Well-formedness bounds for a candidate match `(i, j, k)` of the range
`[alo, ahi) × [blo, bhi)`. -/
def BestInv (alo ahi blo bhi : Nat) (t : Nat × Nat × Nat) : Prop :=
  alo ≤ t.1 ∧ blo ≤ t.2.1 ∧ t.1 + t.2.2 ≤ ahi ∧ t.2.1 + t.2.2 ≤ bhi

theorem innerFold_inv {alo ahi blo bhi i : Nat} {prev : Nat → Nat}
    (hi : alo ≤ i) (hih : i < ahi)
    (hprevr : ∀ x, prev x ≤ i - alo) (hprevc : ∀ x, prev x ≤ x + 1 - blo) :
    ∀ (js : List Nat) (nj : Nat → Nat) (best : Nat × Nat × Nat),
    (∀ j ∈ js, blo ≤ j ∧ j < bhi) →
    (∀ x, nj x ≤ i + 1 - alo ∧ nj x ≤ x + 1 - blo) →
    BestInv alo ahi blo bhi best →
    BestInv alo ahi blo bhi (innerFold i prev js nj best).2 ∧
      (∀ x, (innerFold i prev js nj best).1 x ≤ i + 1 - alo ∧
        (innerFold i prev js nj best).1 x ≤ x + 1 - blo) := by
  intro js
  induction js with
  | nil => intro nj best _ hnj hbest; exact ⟨hbest, hnj⟩
  | cons j js ih =>
    intro nj best hjs hnj hbest
    have hjmem := hjs j (List.mem_cons_self j js)
    have hk1 : (if j = 0 then 0 else prev (j - 1)) + 1 ≤ i - alo + 1 := by
      split <;> [omega; exact Nat.add_le_add_right (hprevr _) 1]
    have hk2 : (if j = 0 then 0 else prev (j - 1)) + 1 ≤ j + 1 - blo := by
      split
      · omega
      · have := hprevc (j - 1); omega
    simp only [innerFold]
    refine ih _ _ (fun j' hj' => hjs j' (List.mem_cons_of_mem j hj')) ?_ ?_
    · intro x
      by_cases hx : x = j <;> simp [hx]
      · omega
      · exact hnj x
    · obtain ⟨hb1, hb2, hb3, hb4⟩ := hbest
      by_cases hlt : best.2.2 < (if j = 0 then 0 else prev (j - 1)) + 1
      · simp only [if_pos hlt, BestInv]
        omega
      · simpa only [if_neg hlt] using ⟨hb1, hb2, hb3, hb4⟩

theorem mainLoop_inv {a b : List α} {alo ahi blo bhi : Nat} :
    ∀ (n i0 : Nat) (j2len : Nat → Nat) (best : Nat × Nat × Nat),
    alo ≤ i0 → i0 + n ≤ ahi →
    (∀ x, j2len x ≤ i0 - alo) → (∀ x, j2len x ≤ x + 1 - blo) →
    BestInv alo ahi blo bhi best →
    BestInv alo ahi blo bhi
      (mainLoop a b blo bhi (List.range' i0 n) j2len best) := by
  intro n
  induction n with
  | zero => intro i0 j2len best _ _ _ _ hbest; simpa [mainLoop] using hbest
  | succ n ih =>
    intro i0 j2len best hlo hhi hr hc hbest
    rw [List.range'_succ]
    simp only [mainLoop]
    have hin := @innerFold_inv alo ahi blo bhi i0 j2len
      hlo (by omega) hr hc
      ((b2jGet b (a.getD i0 default)).filter (fun j => blo ≤ j ∧ j < bhi))
      (fun _ => 0) best
      (by
        intro j hj
        have := List.of_mem_filter hj
        simpa using this)
      (fun x => ⟨Nat.zero_le _, Nat.zero_le _⟩) hbest
    exact ih (i0 + 1) _ _ (by omega) (by omega)
      (fun x => by have := (hin.2 x).1; omega)
      (fun x => (hin.2 x).2) hin.1

theorem extBack_inv {a b : List α} {alo blo : Nat} :
    ∀ besti bestj bestsize, alo ≤ besti → blo ≤ bestj →
    alo ≤ (extBack a b alo blo besti bestj bestsize).1 ∧
    blo ≤ (extBack a b alo blo besti bestj bestsize).2.1 ∧
    (extBack a b alo blo besti bestj bestsize).1 +
      (extBack a b alo blo besti bestj bestsize).2.2 = besti + bestsize ∧
    (extBack a b alo blo besti bestj bestsize).2.1 +
      (extBack a b alo blo besti bestj bestsize).2.2 = bestj + bestsize := by
  intro besti
  induction besti with
  | zero =>
    intro bestj bestsize h1 h2
    exact ⟨h1, h2, rfl, rfl⟩
  | succ besti ih =>
    intro bestj bestsize h1 h2
    show alo ≤ (extBack a b alo blo (besti + 1) bestj bestsize).1 ∧ _
    rw [extBack]
    split
    · next h =>
      have := ih (bestj - 1) (bestsize + 1) (by omega) (by omega)
      exact ⟨this.1, this.2.1, by omega, by omega⟩
    · exact ⟨h1, h2, rfl, rfl⟩

theorem extFwdAux_le {a b : List α} {ahi bhi besti bestj : Nat} :
    ∀ fuel bestsize,
    besti + bestsize ≤ ahi → bestj + bestsize ≤ bhi →
    besti + extFwdAux a b ahi bhi besti bestj fuel bestsize ≤ ahi ∧
      bestj + extFwdAux a b ahi bhi besti bestj fuel bestsize ≤ bhi := by
  intro fuel
  induction fuel with
  | zero =>
    intro bestsize h1 h2
    exact ⟨h1, h2⟩
  | succ n ih =>
    intro bestsize h1 h2
    show besti + extFwdAux a b ahi bhi besti bestj (n + 1) bestsize ≤ ahi ∧ _
    rw [extFwdAux]
    split
    · next h => exact ih (bestsize + 1) (by omega) (by omega)
    · exact ⟨h1, h2⟩

theorem extFwd_le {a b : List α} {ahi bhi besti bestj : Nat} :
    ∀ bestsize,
    besti + bestsize ≤ ahi → bestj + bestsize ≤ bhi →
    besti + extFwd a b ahi bhi besti bestj bestsize ≤ ahi ∧
      bestj + extFwd a b ahi bhi besti bestj bestsize ≤ bhi := by
  intro bestsize h1 h2
  exact extFwdAux_le _ bestsize h1 h2

theorem mainLoop_of_bhi_le_blo {a b : List α} {blo bhi : Nat} (h : bhi ≤ blo) :
    ∀ rows j2len best, mainLoop a b blo bhi rows j2len best = best := by
  intro rows
  induction rows with
  | nil => intro _ _; rfl
  | cons i is ih =>
    intro j2len best
    simp only [mainLoop]
    have hfil : (b2jGet b (a.getD i default)).filter
        (fun j => decide (blo ≤ j ∧ j < bhi)) = [] :=
      List.filter_eq_nil_iff.mpr (fun j _ => by simp; omega)
    rw [hfil]
    simpa [innerFold] using ih _ _

theorem flmPost_inv {a b : List α} {alo ahi blo bhi : Nat}
    {best : Nat × Nat × Nat} (hbest : BestInv alo ahi blo bhi best) :
    alo ≤ (flmPost a b alo ahi blo bhi best).1 ∧
    blo ≤ (flmPost a b alo ahi blo bhi best).2.1 ∧
    (flmPost a b alo ahi blo bhi best).1 +
      (flmPost a b alo ahi blo bhi best).2.2 ≤ ahi ∧
    (flmPost a b alo ahi blo bhi best).2.1 +
      (flmPost a b alo ahi blo bhi best).2.2 ≤ bhi := by
  obtain ⟨hb1, hb2, hb3, hb4⟩ := hbest
  have he := @extBack_inv α _ _ a b alo blo
    best.1 best.2.1 best.2.2 hb1 hb2
  simp only [flmPost]
  set e := extBack a b alo blo best.1 best.2.1 best.2.2 with hedef
  have hfwd := @extFwd_le α _ _ a b ahi bhi e.1 e.2.1
    e.2.2 (by omega) (by omega)
  exact ⟨by omega, by omega, by omega, by omega⟩

theorem extBack_self (a b : List α) (alo blo bs : Nat) :
    extBack a b alo blo alo blo bs = (alo, blo, bs) := by
  cases alo with
  | zero => rfl
  | succ k =>
    show extBack a b (k + 1) blo (k + 1) blo bs = _
    rw [extBack, if_neg (by omega)]

theorem extFwdAux_stop {a b : List α} {ahi bhi besti bestj : Nat}
    (fuel bestsize : Nat)
    (h : ¬ (besti + bestsize < ahi ∧ bestj + bestsize < bhi ∧
      a.getD (besti + bestsize) default = b.getD (bestj + bestsize) default)) :
    extFwdAux a b ahi bhi besti bestj fuel bestsize = bestsize := by
  cases fuel with
  | zero => rfl
  | succ n =>
    show extFwdAux a b ahi bhi besti bestj (n + 1) bestsize = _
    rw [extFwdAux, if_neg h]

theorem flmPost_degenerate {a b : List α} {alo ahi blo bhi : Nat}
    (h : ahi ≤ alo ∨ bhi ≤ blo) :
    flmPost a b alo ahi blo bhi (alo, blo, 0) = (alo, blo, 0) := by
  have hback : extBack a b alo blo alo blo 0 = (alo, blo, 0) :=
    extBack_self a b alo blo 0
  have hfwd : extFwd a b ahi bhi alo blo 0 = 0 := by
    unfold extFwd
    exact extFwdAux_stop _ 0 (by rintro ⟨h1, h2, -⟩; omega)
  simp [flmPost, hback, hfwd]

theorem findLongestMatch_bounds (a b : List α) (alo ahi blo bhi : Nat) :
    alo ≤ (findLongestMatch a b alo ahi blo bhi).1 ∧
    blo ≤ (findLongestMatch a b alo ahi blo bhi).2.1 ∧
    ((findLongestMatch a b alo ahi blo bhi).2.2 ≠ 0 →
      (findLongestMatch a b alo ahi blo bhi).1 +
        (findLongestMatch a b alo ahi blo bhi).2.2 ≤ ahi ∧
      (findLongestMatch a b alo ahi blo bhi).2.1 +
        (findLongestMatch a b alo ahi blo bhi).2.2 ≤ bhi) := by
  by_cases halo : alo ≤ ahi
  · by_cases hblo : blo ≤ bhi
    · have hbest : BestInv alo ahi blo bhi
          (mainLoop a b blo bhi (List.range' alo (ahi - alo)) (fun _ => 0)
            (alo, blo, 0)) :=
        mainLoop_inv (ahi - alo) alo _ _ le_rfl (by omega)
          (fun x => Nat.zero_le _) (fun x => Nat.zero_le _)
          ⟨le_rfl, le_rfl, by simpa using halo, by simpa using hblo⟩
      have := flmPost_inv (a := a) (b := b) hbest
      unfold findLongestMatch
      exact ⟨this.1, this.2.1, fun _ => ⟨this.2.2.1, this.2.2.2⟩⟩
    · unfold findLongestMatch
      rw [mainLoop_of_bhi_le_blo (by omega), flmPost_degenerate (Or.inr (by omega))]
      exact ⟨le_rfl, le_rfl, fun hk => absurd rfl hk⟩
  · unfold findLongestMatch
    have hr : ahi - alo = 0 := by omega
    rw [hr]
    rw [show List.range' alo 0 = ([] : List Nat) from rfl]
    rw [show mainLoop a b blo bhi ([] : List Nat) (fun _ => 0) (alo, blo, 0) =
      (alo, blo, 0) from rfl]
    rw [flmPost_degenerate (Or.inl (by omega))]
    exact ⟨le_rfl, le_rfl, fun hk => absurd rfl hk⟩

/-- `SequenceMatcher.get_matching_blocks`' divide-and-conquer phase.  The
Python code drives a LIFO queue of ranges and finally sorts the collected
blocks; since all blocks found left of the pivot have strictly smaller `i`
(and `j`) than the pivot, and all blocks right of it strictly larger, an
in-order recursion produces exactly that sorted list.  The recursion is
on an explicit bound `fuel`: every recursive call strictly shrinks the
range width `ahi - alo` (by `findLongestMatch_bounds`), so any
`fuel > ahi - alo` — the entry point passes `a.length + 1` — makes the
fuel-out branch unreachable (`matchingBlocksRec_fuel_irrel` below). -/
def matchingBlocksRec (a b : List α) :
    Nat → Nat → Nat → Nat → Nat → List (Nat × Nat × Nat)
  | 0, _, _, _, _ => []
  | fuel + 1, alo, ahi, blo, bhi =>
    let m := findLongestMatch a b alo ahi blo bhi
    if m.2.2 = 0 then []
    else
      (if alo < m.1 ∧ blo < m.2.1 then
        matchingBlocksRec a b fuel alo m.1 blo m.2.1
      else []) ++
      ((m.1, m.2.1, m.2.2) ::
      (if m.1 + m.2.2 < ahi ∧ m.2.1 + m.2.2 < bhi then
        matchingBlocksRec a b fuel (m.1 + m.2.2) ahi (m.2.1 + m.2.2) bhi
      else []))

/-- The fuel bound of `matchingBlocksRec` is irrelevant as long as it
exceeds the range width, so the entry point's `a.length + 1` computes the
true (unbounded) recursion. -/
theorem matchingBlocksRec_fuel_irrel (a b : List α) :
    ∀ (f : Nat) (g : Nat) (alo ahi blo bhi : Nat),
    ahi - alo < f → ahi - alo < g →
    matchingBlocksRec a b f alo ahi blo bhi =
      matchingBlocksRec a b g alo ahi blo bhi := by
  intro f
  induction f with
  | zero => intro g alo ahi blo bhi hf; omega
  | succ f ihf =>
    intro g alo ahi blo bhi hf hg
    cases g with
    | zero => omega
    | succ g =>
      have hb := findLongestMatch_bounds a b alo ahi blo bhi
      simp only [matchingBlocksRec]
      by_cases hk : (findLongestMatch a b alo ahi blo bhi).2.2 = 0
      · rw [if_pos hk, if_pos hk]
      · rw [if_neg hk, if_neg hk]
        have hkk := hb.2.2 hk
        refine congrArg₂ _ ?_ (congrArg _ ?_)
        · by_cases h1 : alo < (findLongestMatch a b alo ahi blo bhi).1 ∧
              blo < (findLongestMatch a b alo ahi blo bhi).2.1
          · rw [if_pos h1, if_pos h1]
            exact ihf g alo _ blo _ (by omega) (by omega)
          · rw [if_neg h1, if_neg h1]
        · by_cases h2 : (findLongestMatch a b alo ahi blo bhi).1 +
              (findLongestMatch a b alo ahi blo bhi).2.2 < ahi ∧
              (findLongestMatch a b alo ahi blo bhi).2.1 +
              (findLongestMatch a b alo ahi blo bhi).2.2 < bhi
          · rw [if_pos h2, if_pos h2]
            exact ihf g _ ahi _ bhi (by omega) (by omega)
          · rw [if_neg h2, if_neg h2]

/-- The adjacent-block merging pass of `get_matching_blocks` (fold with
current block `(i1, j1, k1)`, flushing only non-empty blocks). -/
def mergeAdj (cur : Nat × Nat × Nat) :
    List (Nat × Nat × Nat) → List (Nat × Nat × Nat)
  | [] => if cur.2.2 ≠ 0 then [cur] else []
  | bl :: rest =>
    if cur.1 + cur.2.2 = bl.1 ∧ cur.2.1 + cur.2.2 = bl.2.1 then
      mergeAdj (cur.1, cur.2.1, cur.2.2 + bl.2.2) rest
    else
      (if cur.2.2 ≠ 0 then [cur] else []) ++ mergeAdj bl rest

/-- `SequenceMatcher.get_matching_blocks()`, ending with the sentinel block
`(len(a), len(b), 0)`. -/
def getMatchingBlocks (a b : List α) : List (Nat × Nat × Nat) :=
  mergeAdj (0, 0, 0)
    (matchingBlocksRec a b (a.length + 1) 0 a.length 0 b.length) ++
    [(a.length, b.length, 0)]

/-- Opcode tags of `SequenceMatcher.get_opcodes`. -/
inductive OpTag : Type
  | equal
  | insert
  | delete
  | replace
deriving DecidableEq, Repr

/-- One opcode `(tag, i1, i2, j1, j2)`. -/
structure Opcode : Type where
  tag : OpTag
  i1 : Nat
  i2 : Nat
  j1 : Nat
  j2 : Nat
deriving DecidableEq, Repr

/-- The opcode-emitting fold of `get_opcodes` over the matching blocks. -/
def opcodesFromBlocks : Nat → Nat → List (Nat × Nat × Nat) → List Opcode
  | _, _, [] => []
  | i, j, (ai, bj, size) :: rest =>
    (if i < ai ∧ j < bj then [⟨OpTag.replace, i, ai, j, bj⟩]
     else if i < ai then [⟨OpTag.delete, i, ai, j, bj⟩]
     else if j < bj then [⟨OpTag.insert, i, ai, j, bj⟩]
     else []) ++
    ((if size ≠ 0 then [⟨OpTag.equal, ai, ai + size, bj, bj + size⟩] else []) ++
      opcodesFromBlocks (ai + size) (bj + size) rest)

/-- `SequenceMatcher.get_opcodes()`. -/
def getOpcodes (a b : List α) : List Opcode :=
  opcodesFromBlocks 0 0 (getMatchingBlocks a b)

/-- `SequenceMatcher.ratio()` = `2*M / (len(a)+len(b))` with `M` the total
size of the matching blocks (difflib's `_calculate_ratio` returns `1.0`
when both sequences are empty).  Python computes this in floating point;
it is modelled exactly in `ℚ`. -/
def seqRatio (a b : List α) : ℚ :=
  if a.length + b.length = 0 then 1
  else (2 * ((getMatchingBlocks a b).map (fun m => m.2.2)).sum : ℚ) /
    (a.length + b.length)

/-! ## Diff data model and `DiffResult.from_files` (src/diff_engine.py) -/

/-- `DiffType`. -/
inductive DiffType : Type
  | EQUAL
  | INSERT
  | DELETE
  | REPLACE
deriving DecidableEq, Repr, Inhabited

/-- `DiffLine`. -/
structure DiffLine : Type where
  type : DiffType
  content : String
  left_line_num : Option Nat := none
  right_line_num : Option Nat := none
deriving DecidableEq, Repr, Inhabited

/-- `DiffLine.is_change`. -/
def DiffLine.is_change (dl : DiffLine) : Bool := dl.type ≠ DiffType.EQUAL

/-- `DiffResult`. -/
structure DiffResult : Type where
  lines : List DiffLine
  left_line_count : Nat
  right_line_count : Nat
  change_count : Nat
deriving DecidableEq, Repr

/-- Python slice `l[i1:i2]` (for nonnegative bounds). -/
def sliceList (l : List String) (i1 i2 : Nat) : List String :=
  (l.drop i1).take (i2 - i1)

/-- The `equal` branch of the opcode walk: one `DiffLine` per line; a line
number is attached, and the corresponding counter incremented, only for
truthy (non-empty) lines (`left_count + 1 if line else None`). -/
def equalWalk : List String → Nat → Nat → List DiffLine × Nat × Nat
  | [], lc, rc => ([], lc, rc)
  | line :: ls, lc, rc =>
    let dl : DiffLine :=
      ⟨DiffType.EQUAL, line,
        if line ≠ "" then some (lc + 1) else none,
        if line ≠ "" then some (rc + 1) else none⟩
    let r := equalWalk ls (if line ≠ "" then lc + 1 else lc)
      (if line ≠ "" then rc + 1 else rc)
    (dl :: r.1, r.2)

/-- The `insert` branch: one `DiffLine` per right-side line, right number
set, `change_count += 1` per line; returns (lines, right_count,
change_count). -/
def insertWalk : List String → Nat → Nat → List DiffLine × Nat × Nat
  | [], rc, cc => ([], rc, cc)
  | line :: ls, rc, cc =>
    let dl : DiffLine := ⟨DiffType.INSERT, line, none, some (rc + 1)⟩
    let r := insertWalk ls (rc + 1) (cc + 1)
    (dl :: r.1, r.2)

/-- The `delete` branch: one `DiffLine` per left-side line, left number set,
`change_count += 1` per line; returns (lines, left_count, change_count). -/
def deleteWalk : List String → Nat → Nat → List DiffLine × Nat × Nat
  | [], lc, cc => ([], lc, cc)
  | line :: ls, lc, cc =>
    let dl : DiffLine := ⟨DiffType.DELETE, line, some (lc + 1), none⟩
    let r := deleteWalk ls (lc + 1) (cc + 1)
    (dl :: r.1, r.2)

/-- The `replace` branch's indexed loop `for idx in range(max_lines)`:
emit the left line (if `idx` is below the left block length `m`) then the
right line (if below `n`), reading `left_lines[i1 + idx]` /
`right_lines[j1 + idx]`; returns (lines, left_count, right_count). -/
def replaceWalk (L R : List String) (i1 j1 m n : Nat) :
    List Nat → Nat → Nat → List DiffLine × Nat × Nat
  | [], lc, rc => ([], lc, rc)
  | idx :: idxs, lc, rc =>
    let lpart : List DiffLine :=
      if idx < m then
        [⟨DiffType.REPLACE, L.getD (i1 + idx) "", some (lc + 1), none⟩]
      else []
    let lc' := if idx < m then lc + 1 else lc
    let rpart : List DiffLine :=
      if idx < n then
        [⟨DiffType.REPLACE, R.getD (j1 + idx) "", none, some (rc + 1)⟩]
      else []
    let rc' := if idx < n then rc + 1 else rc
    let r := replaceWalk L R i1 j1 m n idxs lc' rc'
    (lpart ++ rpart ++ r.1, r.2)

/-- Processing of a single opcode in `DiffResult.from_files`, threading the
`(left_count, right_count, change_count)` counters. -/
def processOpcode (L R : List String) (lc rc cc : Nat) (op : Opcode) :
    List DiffLine × Nat × Nat × Nat :=
  match op.tag with
  | OpTag.equal =>
    let e := equalWalk (sliceList L op.i1 op.i2) lc rc
    (e.1, e.2.1, e.2.2, cc)
  | OpTag.insert =>
    let e := insertWalk (sliceList R op.j1 op.j2) rc cc
    (e.1, lc, e.2.1, e.2.2)
  | OpTag.delete =>
    let e := deleteWalk (sliceList L op.i1 op.i2) lc cc
    (e.1, e.2.1, rc, e.2.2)
  | OpTag.replace =>
    let m := (sliceList L op.i1 op.i2).length
    let n := (sliceList R op.j1 op.j2).length
    let e := replaceWalk L R op.i1 op.j1 m n (List.range (max m n)) lc rc
    (e.1, e.2.1, e.2.2, cc + 1)

/-- The full opcode walk of `DiffResult.from_files`. -/
def walkOpcodes (L R : List String) :
    List Opcode → Nat → Nat → Nat → List DiffLine × Nat × Nat × Nat
  | [], lc, rc, cc => ([], lc, rc, cc)
  | op :: rest, lc, rc, cc =>
    let p := processOpcode L R lc rc cc op
    let w := walkOpcodes L R rest p.2.1 p.2.2.1 p.2.2.2
    (p.1 ++ w.1, w.2)

/-- The optional per-line normalization applied to both inputs of
`DiffResult.from_files` (`IgnoreOptions.preprocess_line` mapped over the
lines when ignore options are given). -/
def applyIgnore (preprocess : Option (String → String))
    (lines : List String) : List String :=
  match preprocess with
  | some f => lines.map f
  | none => lines

/-- `DiffResult.from_files(left_lines, right_lines, ignore_options)`.
The optional `IgnoreOptions.preprocess_line` normalization is modelled as
an abstract line transformation `preprocess : Option (String → String)`
(its internals — whitespace/case folding and regex comment stripping —
are not the subject of any claim).  When present, both sides are mapped
through it before matching, exactly as in the source. -/
def DiffResult.from_files (left_lines right_lines : List String)
    (preprocess : Option (String → String)) : DiffResult :=
  let L := applyIgnore preprocess left_lines
  let R := applyIgnore preprocess right_lines
  let w := walkOpcodes L R (getOpcodes L R) 0 0 0
  ⟨w.1, w.2.1, w.2.2.1, w.2.2.2⟩

/-! ## LineAligner (src/diff_engine.py)

Python float scores are modelled exactly in `ℚ`; `str.strip`, `str.lower`
and the `\w+` word tokenizer are modelled over the character list of the
string (`\w` as ASCII alphanumeric or underscore). -/

/-- Python `str.strip()` on a character list. -/
def stripL (l : List Char) : List Char :=
  ((l.dropWhile Char.isWhitespace).reverse.dropWhile Char.isWhitespace).reverse

/-- Python `str.strip()`. -/
def stripStr (s : String) : String := ⟨stripL s.data⟩

/-- A `\w` word character. -/
def isWordChar (c : Char) : Bool := c.isAlphanum || c = '_'

/-- `re.findall(r'\w+', text)`: the maximal runs of word characters. -/
def wordRunsAux : List Char → List Char → List (List Char)
  | [], acc => if acc = [] then [] else [acc.reverse]
  | c :: rest, acc =>
    if isWordChar c then wordRunsAux rest (c :: acc)
    else (if acc = [] then [] else [acc.reverse]) ++ wordRunsAux rest []

/-- `re.findall(r'\w+', text)`. -/
def wordRuns (l : List Char) : List (List Char) := wordRunsAux l []

/-- `LineAligner._word_similarity`: Jaccard index of the two lowercase
word-token sets (word sets modelled as deduplicated lists). -/
def wordSimilarity (text1 text2 : String) : ℚ :=
  let words1 := (wordRuns (text1.data.map Char.toLower)).dedup
  let words2 := (wordRuns (text2.data.map Char.toLower)).dedup
  if words1 = [] ∧ words2 = [] then 1
  else if words1 = [] ∨ words2 = [] then 0
  else
    let inter := words1.filter (fun w => w ∈ words2)
    let uni := (words1 ++ words2).dedup
    if uni ≠ [] then (inter.length : ℚ) / uni.length else 0

/-- One cell of `LineAligner._compute_similarity_matrix`: strip both
contents; either empty ⇒ `0.0`; else
`SequenceMatcher(None, l, r).ratio() * 0.6 + word_similarity * 0.4`. -/
def computeSimilarity (left_line right_line : DiffLine) : ℚ :=
  let left_content := stripStr left_line.content
  let right_content := stripStr right_line.content
  if left_content = "" ∨ right_content = "" then 0
  else
    let string_ratio := seqRatio left_content.data right_content.data
    let word_ratio := wordSimilarity left_content right_content
    string_ratio * 0.6 + word_ratio * 0.4

/-- `LineAligner._compute_similarity_matrix`. -/
def similarityMatrix (left_block right_block : List DiffLine) : List (List ℚ) :=
  left_block.map (fun l => right_block.map (fun r => computeSimilarity l r))

/-- One scan of the greedy loop: over all unmatched `(li, ri)` pairs in
row-major order, keep the first strictly-greatest score (initial best
score `0`, no pair). -/
def scanBest (mat : List (List ℚ)) (m n : Nat)
    (matchedL matchedR : List Nat) : ℚ × Option (Nat × Nat) :=
  ((List.range m).flatMap (fun li => (List.range n).map (fun ri => (li, ri)))).foldl
    (fun best p =>
      if p.1 ∈ matchedL ∨ p.2 ∈ matchedR then best
      else
        let s := (mat.getD p.1 []).getD p.2 0
        if best.1 < s then (s, some p) else best)
    (0, none)

/-- The greedy matching loop of `LineAligner._align_replace_block`
(`while True: … if best_score < 0.3: break …`).  Each iteration either
stops or consumes one fresh left index, so `left_block.length + 1` fuel
is enough for the loop to reach its break; the `none` branch is
unreachable since a strictly positive best score always carries a pair. -/
def greedyLoop (lb rb : List DiffLine) (mat : List (List ℚ)) :
    Nat → List Nat → List Nat → List DiffLine × List Nat × List Nat
  | 0, mL, mR => ([], mL, mR)
  | fuel + 1, mL, mR =>
    let best := scanBest mat lb.length rb.length mL mR
    if best.1 < 0.3 then ([], mL, mR)
    else
      match best.2 with
      | none => ([], mL, mR)
      | some (li, ri) =>
        let left_line := lb.getD li default
        let right_line := rb.getD ri default
        let emitted : List DiffLine :=
          if 0.8 < best.1 then
            [⟨DiffType.EQUAL, left_line.content,
              left_line.left_line_num, right_line.right_line_num⟩]
          else
            [⟨DiffType.REPLACE, left_line.content,
              left_line.left_line_num, none⟩,
             ⟨DiffType.REPLACE, right_line.content,
              none, right_line.right_line_num⟩]
        let r := greedyLoop lb rb mat fuel (li :: mL) (ri :: mR)
        (emitted ++ r.1, r.2)

/-- Unmatched left lines become `DELETE` lines (in block order). -/
def unmatchedDeletes (lb : List DiffLine) (mL : List Nat) : List DiffLine :=
  ((List.range lb.length).filter (fun li => li ∉ mL)).map (fun li =>
    let left_line := lb.getD li default
    ⟨DiffType.DELETE, left_line.content, left_line.left_line_num, none⟩)

/-- Unmatched right lines become `INSERT` lines (in block order). -/
def unmatchedInserts (rb : List DiffLine) (mR : List Nat) : List DiffLine :=
  ((List.range rb.length).filter (fun ri => ri ∉ mR)).map (fun ri =>
    let right_line := rb.getD ri default
    ⟨DiffType.INSERT, right_line.content, none, right_line.right_line_num⟩)

/-- `LineAligner._align_replace_block(left_lines, right_lines, diff_lines,
left_idx, right_idx, start_line)`; returns `(lines, left_idx, right_idx)`.
`diff_lines.index(start_line)` is Python's first-occurrence-by-equality
search (the element is always present at the call sites; an absent element
would raise, modelled as the out-of-range index `length`). -/
def alignReplaceBlock (diff_lines : List DiffLine)
    (left_idx right_idx : Nat) (start_line : DiffLine) :
    List DiffLine × Nat × Nat :=
  let i := diff_lines.findIdx (fun dl => dl = start_line)
  let run := (diff_lines.drop i).takeWhile (fun dl => dl.type = DiffType.REPLACE)
  let left_block := run.filter (fun dl => dl.left_line_num ≠ none)
  let right_block := run.filter (fun dl => dl.right_line_num ≠ none)
  if left_block = [] ∨ right_block = [] then
    ([start_line],
      left_idx + (if start_line.left_line_num ≠ none then 1 else 0),
      right_idx + (if start_line.right_line_num ≠ none then 1 else 0))
  else
    let mat := similarityMatrix left_block right_block
    let g := greedyLoop left_block right_block mat (left_block.length + 1) [] []
    let dels := unmatchedDeletes left_block g.2.1
    let ins := unmatchedInserts right_block g.2.2
    (g.1 ++ dels ++ ins, left_idx + dels.length, right_idx + ins.length)

/-- The per-line dispatch loop of `LineAligner.align_lines`. -/
def alignLinesGo (dlines : List DiffLine) :
    List DiffLine → Nat → Nat → List DiffLine × Nat × Nat
  | [], li, ri => ([], li, ri)
  | dl :: rest, li, ri =>
    match dl.type with
    | DiffType.EQUAL =>
      let r := alignLinesGo dlines rest (li + 1) (ri + 1)
      (dl :: r.1, r.2)
    | DiffType.INSERT =>
      let r := alignLinesGo dlines rest li (ri + 1)
      (dl :: r.1, r.2)
    | DiffType.DELETE =>
      let r := alignLinesGo dlines rest (li + 1) ri
      (dl :: r.1, r.2)
    | DiffType.REPLACE =>
      let a := alignReplaceBlock dlines li ri dl
      let r := alignLinesGo dlines rest a.2.1 a.2.2
      (a.1 ++ r.1, r.2)

/-- `LineAligner.align_lines(left_lines, right_lines, diff_result)`:
rebuilds the line list (dispatching every `REPLACE` entry through
`_align_replace_block`) and copies the three counters of the input
result unchanged.  `left_lines`/`right_lines` are accepted but never
read by `_align_replace_block`, exactly as in the source. -/
def LineAligner.align_lines (left_lines right_lines : List String)
    (diff_result : DiffResult) : DiffResult :=
  ⟨(alignLinesGo diff_result.lines diff_result.lines 0 0).1,
    diff_result.left_line_count,
    diff_result.right_line_count,
    diff_result.change_count⟩

/-! ## Three-way merge (src/gui/three_way_merge.py)

`merged_content` is a Python string; the resolver splits it on `'\n'`,
splices line ranges, and joins with `'\n'`.  Split/join are modelled on
the character list of the string. -/

/-- Python `s.split('\n')` on a character list (`"" ↦ [""]`). -/
def splitNlL : List Char → List (List Char)
  | [] => [[]]
  | c :: rest =>
    if c = '\n' then [] :: splitNlL rest
    else
      match splitNlL rest with
      | [] => [[c]]
      | h :: t => (c :: h) :: t

/-- Python `s.split('\n')`. -/
def splitNl (s : String) : List String := (splitNlL s.data).map (fun l => ⟨l⟩)

/-- Python `'\n'.join(ls)` on character lists. -/
def joinNlL : List (List Char) → List Char
  | [] => []
  | [l] => l
  | l :: rest => l ++ '\n' :: joinNlL rest

/-- Python `'\n'.join(ls)`. -/
def joinNl (ls : List String) : String := ⟨joinNlL (ls.map String.data)⟩

/-- Python `s.startswith(pre)`. -/
def startswith (s pre : String) : Bool := pre.data.isPrefixOf s.data

/-- Python `s.replace(pat, "")` (remove every occurrence), on character
lists; only used by a dead branch of the conflict detector. -/
def removeAllL (pat : List Char) : List Char → List Char
  | [] => []
  | c :: rest =>
    if pat ≠ [] ∧ pat.isPrefixOf (c :: rest) then
      removeAllL pat ((c :: rest).drop pat.length)
    else
      c :: removeAllL pat rest
termination_by l => l.length
decreasing_by
  · rename_i h
    have : pat.length ≤ (c :: rest).length := List.IsPrefix.length_le
      (List.isPrefixOf_iff_prefix.mp h.2)
    simp only [List.length_drop]
    have hp : pat.length ≠ 0 := by
      intro hh
      exact h.1 (List.length_eq_zero.mp hh)
    simp at this ⊢
    omega
  · simp

/-- The resolution choice passed to `_resolve_conflict` (Python uses the
strings `"left"`, `"right"`, `"both"`). -/
inductive Resolution : Type
  | left
  | right
  | both
deriving DecidableEq, Repr, Inhabited

/-- `ConflictMarker`. -/
structure ConflictMarker : Type where
  start_line : Nat
  end_line : Nat
  left_content : String
  right_content : String
  resolution : Option Resolution := none
deriving DecidableEq, Repr, Inhabited

/-- `ConflictMarker.has_resolution`. -/
def ConflictMarker.has_resolution (c : ConflictMarker) : Bool :=
  c.resolution.isSome

/-- The scanning loop of `ThreeWayMergeView._detect_conflicts`, translated
branch-for-branch (including the two branches that are unreachable: a line
starting with `"<<<<<<<"` is always captured by the first test, and
`right_lines` can only be appended to when it is already non-empty, so it
stays empty forever). -/
def detectGo : List String → Nat → Bool → Nat → List String → List String →
    List ConflictMarker
  | [], _, _, _, _, _ => []
  | line :: rest, i, in_conflict, conflict_start, left_lines, right_lines =>
    if startswith line "<<<<<<<" then
      detectGo rest (i + 1) true i [] []
    else if in_conflict && startswith line "=======" then
      detectGo rest (i + 1) in_conflict conflict_start left_lines right_lines
    else if in_conflict && startswith line ">>>>>>>" then
      ⟨conflict_start, i, joinNl left_lines, joinNl right_lines, none⟩ ::
        detectGo rest (i + 1) false conflict_start [] []
    else if in_conflict then
      if ¬ startswith line "=======" then
        if ¬ startswith line ">>>>>>>" then
          if left_lines ≠ [] ∨ ¬ startswith line "<<<<<<<" then
            if ¬ startswith line "<<<<<<<" then
              if right_lines = [] then
                if ¬ startswith line "=======" then
                  detectGo rest (i + 1) in_conflict conflict_start
                    (left_lines ++ [line]) right_lines
                else
                  detectGo rest (i + 1) in_conflict conflict_start
                    left_lines right_lines
              else
                detectGo rest (i + 1) in_conflict conflict_start
                  left_lines (right_lines ++ [line])
            else
              detectGo rest (i + 1) in_conflict conflict_start
                (left_lines ++
                  [stripStr ⟨removeAllL "<<<<<<< HEAD".data line.data⟩])
                right_lines
          else
            detectGo rest (i + 1) in_conflict conflict_start
              left_lines right_lines
        else
          detectGo rest (i + 1) in_conflict conflict_start
            left_lines right_lines
      else
        detectGo rest (i + 1) in_conflict conflict_start left_lines right_lines
    else
      detectGo rest (i + 1) in_conflict conflict_start left_lines right_lines

/-- `ThreeWayMergeView._detect_conflicts` run over `merged_content`. -/
def detectConflicts (merged : String) : List ConflictMarker :=
  detectGo (splitNl merged) 0 false 0 [] []

/-- `ThreeWayMergeView.is_fully_resolved` over the current conflict list. -/
def isFullyResolved (conflicts : List ConflictMarker) : Bool :=
  conflicts.all (fun c => c.has_resolution)

/-- One `_resolve_conflict(resolution)` step acting on `merged_content`,
with the conflict at `idx` (the method acts on
`self._current_conflict_index` and returns unchanged when it is out of
range).  The marker span `[start_line, end_line]` is spliced out and
replaced by the single element `new_content`; afterwards the conflicts are
re-detected from the new content, so only the content is carried. -/
def resolveConflictAt (merged : String) (idx : Nat) (choice : Resolution) :
    String :=
  let conflicts := detectConflicts merged
  if idx < conflicts.length then
    let conflict := conflicts.getD idx default
    let lines := splitNl merged
    let new_content : String :=
      match choice with
      | Resolution.left => conflict.left_content
      | Resolution.right => conflict.right_content
      | Resolution.both =>
        conflict.left_content ++ "\n" ++ conflict.right_content
    if conflict.start_line < lines.length then
      joinNl (lines.take conflict.start_line ++ [new_content] ++
        lines.drop (conflict.end_line + 1))
    else
      joinNl lines
  else merged

/-! ## Folder synchronization (src/utils/sync_manager.py)

The filesystem effect of `_copy_item` is modelled by an oracle
`copyFails src dst` (whether the copy raises) together with
`copyError src dst` (the text of the raised exception).  The progress
callback is a pure side effect and is not modelled.  `datetime`
timestamps are modelled as integers (only their order is used). -/

/-- `ConflictResolution` (sync conflict policies). -/
inductive SyncPolicy : Type
  | skip
  | left_wins
  | right_wins
  | newer_wins
  | larger_wins
  | prompt
deriving DecidableEq, Repr, Inhabited

/-- `SyncConflict`. -/
structure SyncConflict : Type where
  path : String
  left_path : String
  right_path : String
  left_modified : Int
  right_modified : Int
  left_size : Nat
  right_size : Nat
  reason : String
deriving DecidableEq, Repr, Inhabited

/-- `SyncOperation`. -/
structure SyncOperation : Type where
  operation_type : String
  source_path : String
  destination_path : String
  is_directory : Bool := false
  size : Nat := 0
deriving DecidableEq, Repr, Inhabited

/-- `SyncResult`. -/
structure SyncResult : Type where
  success : Bool
  operations_performed : List SyncOperation := []
  conflicts : List SyncConflict := []
  errors : List String := []
  files_copied : Nat := 0
  directories_created : Nat := 0
  bytes_transferred : Nat := 0
deriving DecidableEq, Repr

/-- `SyncManager._resolve_conflict(conflict, default_resolution)`: any
non-`PROMPT` policy is returned unchanged; under `PROMPT` a registered
callback decides; the trailing `NEWER_WINS`/`LARGER_WINS` comparisons are
only reachable with `default_resolution == PROMPT` and no callback, where
neither test can hold, so they are dead code and the method yields
`SKIP`. -/
def SyncManager.resolve_conflict
    (conflict_callback : Option (SyncConflict → SyncPolicy))
    (conflict : SyncConflict) (default_resolution : SyncPolicy) : SyncPolicy :=
  if default_resolution ≠ SyncPolicy.prompt then default_resolution
  else
    match conflict_callback with
    | some cb => cb conflict
    | none =>
      if default_resolution = SyncPolicy.newer_wins then
        if conflict.right_modified < conflict.left_modified then
          SyncPolicy.left_wins
        else SyncPolicy.right_wins
      else if default_resolution = SyncPolicy.larger_wins then
        if conflict.right_size < conflict.left_size then SyncPolicy.left_wins
        else SyncPolicy.right_wins
      else SyncPolicy.skip

/-- The operations loop of `sync_folders`: each copy is attempted inside
its own `try`; a failure appends
`f"Failed to copy {operation.source_path}: {e}"` to `errors` and the loop
continues. -/
def runOpsLoop (copyFails : String → String → Bool)
    (copyError : String → String → String) :
    List SyncOperation → SyncResult → SyncResult
  | [], res => res
  | op :: rest, res =>
    if op.operation_type = "copy" then
      if copyFails op.source_path op.destination_path then
        runOpsLoop copyFails copyError rest
          { res with errors := res.errors ++
              ["Failed to copy " ++ op.source_path ++ ": " ++
                copyError op.source_path op.destination_path] }
      else
        let res' := { res with
          operations_performed := res.operations_performed ++ [op] }
        let res'' :=
          if op.is_directory then
            { res' with directories_created := res'.directories_created + 1 }
          else
            { res' with
              files_copied := res'.files_copied + 1
              bytes_transferred := res'.bytes_transferred + op.size }
        runOpsLoop copyFails copyError rest res''
    else
      runOpsLoop copyFails copyError rest res

/-- The conflict loop of `sync_folders`.  Unlike the operations loop it has
no per-item `try`: a failing `_copy_item` raises out of the loop into the
top-level handler, which sets `success = False`, appends `str(e)` and
returns — abandoning the remaining conflicts.  A resolution other than
`SKIP`/`LEFT_WINS`/`RIGHT_WINS` matches no branch of the `elif` chain and
does nothing. -/
def runConflictLoop (copyFails : String → String → Bool)
    (copyError : String → String → String)
    (conflict_callback : Option (SyncConflict → SyncPolicy))
    (conflict_resolution : SyncPolicy) :
    List SyncConflict → SyncResult → SyncResult
  | [], res => res
  | conflict :: rest, res =>
    let resolution := SyncManager.resolve_conflict conflict_callback conflict
      conflict_resolution
    if resolution = SyncPolicy.skip then
      runConflictLoop copyFails copyError conflict_callback
        conflict_resolution rest res
    else if resolution = SyncPolicy.left_wins then
      if copyFails conflict.left_path conflict.right_path then
        { res with
          success := false
          errors := res.errors ++
            [copyError conflict.left_path conflict.right_path] }
      else
        runConflictLoop copyFails copyError conflict_callback
          conflict_resolution rest
          { res with files_copied := res.files_copied + 1 }
    else if resolution = SyncPolicy.right_wins then
      if copyFails conflict.right_path conflict.left_path then
        { res with
          success := false
          errors := res.errors ++
            [copyError conflict.right_path conflict.left_path] }
      else
        runConflictLoop copyFails copyError conflict_callback
          conflict_resolution rest
          { res with files_copied := res.files_copied + 1 }
    else
      runConflictLoop copyFails copyError conflict_callback
        conflict_resolution rest res

/-- `SyncManager.sync_folders` after a successful `preview_sync`: the
result starts with `success = True` and the preview's conflicts, runs all
planned operations, then the conflict loop. -/
def syncFoldersFromPreview (copyFails : String → String → Bool)
    (copyError : String → String → String)
    (conflict_callback : Option (SyncConflict → SyncPolicy))
    (conflict_resolution : SyncPolicy)
    (operations : List SyncOperation) (conflicts : List SyncConflict) :
    SyncResult :=
  let res0 : SyncResult := { success := true, conflicts := conflicts }
  let res1 := runOpsLoop copyFails copyError operations res0
  runConflictLoop copyFails copyError conflict_callback conflict_resolution
    conflicts res1

/-- `SyncManager.sync_folders` including the top-level `preview_sync` call:
a raising preview (`ValueError` for a non-directory path) is caught by the
outer handler, which records `success = False` with the exception text. -/
def SyncManager.sync_folders
    (preview : Except String (List SyncOperation × List SyncConflict))
    (copyFails : String → String → Bool)
    (copyError : String → String → String)
    (conflict_callback : Option (SyncConflict → SyncPolicy))
    (conflict_resolution : SyncPolicy) : SyncResult :=
  match preview with
  | Except.error e => { success := false, errors := [e] }
  | Except.ok (operations, conflicts) =>
    syncFoldersFromPreview copyFails copyError conflict_callback
      conflict_resolution operations conflicts

/-! ## Directory comparison (src/diff_engine.py, `DirectoryDiffEngine`)

Filesystem access is modelled by an oracle structure; path strings are
opaque keys, `os.path.join` is modelled as `/`-concatenation. -/

/-- The filesystem oracle used by `compare_directories`. -/
structure FileSystem : Type where
  isDir : String → Bool
  pathExists : String → Bool
  listdir : String → List String
  readFile : String → Option String

/-- `DirectoryDiffEntry`. -/
structure DirectoryDiffEntry : Type where
  name : String
  left_path : Option String
  right_path : Option String
  is_directory : Bool
  is_modified : Bool
  is_only_left : Bool
  is_only_right : Bool
deriving DecidableEq, Repr

/-- `DirectoryDiffResult`. -/
structure DirectoryDiffResult : Type where
  entries : List DirectoryDiffEntry
  left_path : String
  right_path : String
deriving DecidableEq, Repr

/-- `os.path.join(base, item)` (with Python's `if base else item` guard as
used in the source). -/
def pathJoin (base item : String) : String :=
  if base ≠ "" then base ++ "/" ++ item else item

/-- `sorted(left_items | right_items)` — the lexicographically sorted,
deduplicated union of the two listings. -/
def sortedUnion (ls rs : List String) : List String :=
  ((ls ++ rs).dedup).mergeSort (fun a b => a ≤ b)

/-- The per-entry body of `compare_directories`. -/
def compareEntry (fs : FileSystem) (left_path right_path item : String) :
    DirectoryDiffEntry :=
  let left_item_path := pathJoin left_path item
  let right_item_path := pathJoin right_path item
  let left_exists := fs.pathExists left_item_path
  let right_exists := fs.pathExists right_item_path
  let is_only_left := left_exists && !right_exists
  let is_only_right := right_exists && !left_exists
  let is_directory := if left_exists && right_exists then
    fs.isDir left_item_path else false
  let is_modified :=
    if left_exists && right_exists && !is_directory then
      match fs.readFile left_item_path, fs.readFile right_item_path with
      | some lc, some rc => lc ≠ rc
      | _, _ => true
    else false
  ⟨item, if left_exists then some left_item_path else none,
    if right_exists then some right_item_path else none,
    is_directory, is_modified, is_only_left, is_only_right⟩

/-- `DirectoryDiffEngine.compare_directories(left_path, right_path)`.
When either path is not a directory the method returns an ordinary
`DirectoryDiffResult` with an empty entries list (it has no error
channel). -/
def DirectoryDiffEngine.compare_directories (fs : FileSystem)
    (left_path right_path : String) : DirectoryDiffResult :=
  if ¬ (fs.isDir left_path ∧ fs.isDir right_path) then
    ⟨[], left_path, right_path⟩
  else
    ⟨(sortedUnion (fs.listdir left_path) (fs.listdir right_path)).map
      (compareEntry fs left_path right_path), left_path, right_path⟩

/-! ## Claim C1 -/

theorem detectGo_right_content_empty :
    ∀ (lines : List String) (i cs : Nat) (ic : Bool) (ll : List String),
    ∀ c ∈ detectGo lines i ic cs ll [], c.right_content = "" := by
  intro lines
  induction lines with
  | nil => intro i cs ic ll c hc; simp [detectGo] at hc
  | cons line rest ih =>
    intro i cs ic ll c hc
    simp only [detectGo] at hc
    split_ifs at hc <;>
      first
        | exact ih _ _ _ _ c hc
        | exact (by
            rcases List.mem_cons.mp hc with hceq | hcm
            · subst hceq; rfl
            · exact ih _ _ _ _ c hcm)

/-- C1: the claim states that conflict detection splits a well-formed
conflict block at the `=======` separator, putting the lines before it in
`left_content` and the lines after it in `right_content`.  The code
cannot do this: its `right_lines` list is only ever appended to when it
is already non-empty, so it stays empty forever — every content line of
the block (on both sides of the separator) is collected into
`left_content`, and `right_content` of every detected marker is the
empty string.  On the well-formed block
`<<<<<<< HEAD / A / ======= / B / >>>>>>> branch` the code yields
`left_content = "A\nB"` and `right_content = ""` (the span
`(0, 4)` is as claimed). -/
theorem detect_conflicts_collects_both_sides_into_left :
    detectConflicts "<<<<<<< HEAD\nA\n=======\nB\n>>>>>>> branch" =
      [{ start_line := 0, end_line := 4, left_content := "A\nB",
         right_content := "", resolution := none }] ∧
    ∀ merged : String, ∀ c ∈ detectConflicts merged, c.right_content = "" := by
  constructor
  · rfl
  · intro merged c hc
    exact detectGo_right_content_empty _ _ _ _ _ c hc

theorem detect_conflicts_collects_both_sides_into_left_witness :
    ((detectConflicts "<<<<<<< HEAD\nA\n=======\nB\n>>>>>>> branch").getD 0
      default).right_content = "" :=
  detect_conflicts_collects_both_sides_into_left.2
    "<<<<<<< HEAD\nA\n=======\nB\n>>>>>>> branch"
    ((detectConflicts "<<<<<<< HEAD\nA\n=======\nB\n>>>>>>> branch").getD 0
      default)
    (by rw [detect_conflicts_collects_both_sides_into_left.1]; simp)

/-! ## Claim C2 -/

/-- C2: the claim states that under the `NEWER_WINS` (resp. `LARGER_WINS`)
policy the engine copies the side with the later timestamp (larger size)
over the other.  In the code, `_resolve_conflict` returns any
non-`PROMPT` policy unchanged, so it returns `NEWER_WINS`/`LARGER_WINS`
themselves; the `elif` chain in `sync_folders` only handles
`SKIP`/`LEFT_WINS`/`RIGHT_WINS`, so nothing is copied at all — the
timestamp/size comparisons in `_resolve_conflict` are dead code.  The
conflict loop is a no-op under both policies (for every oracle, callback,
conflict list and accumulated result), and on a concrete content-differs
conflict whose left side is newer the sync performs no copy. -/
theorem newer_larger_wins_policies_copy_nothing :
    (∀ (copyFails : String → String → Bool)
      (copyError : String → String → String)
      (cb : Option (SyncConflict → SyncPolicy))
      (conflicts : List SyncConflict) (res : SyncResult),
      runConflictLoop copyFails copyError cb SyncPolicy.newer_wins conflicts
          res = res ∧
      runConflictLoop copyFails copyError cb SyncPolicy.larger_wins conflicts
          res = res) ∧
    (syncFoldersFromPreview (fun _ _ => false) (fun _ _ => "") none
        SyncPolicy.newer_wins []
        [{ path := "b.txt", left_path := "L/b.txt", right_path := "R/b.txt",
           left_modified := 200, right_modified := 100,
           left_size := 5, right_size := 3, reason := "Content differs" }] =
      { success := true,
        conflicts :=
          [{ path := "b.txt", left_path := "L/b.txt",
             right_path := "R/b.txt", left_modified := 200,
             right_modified := 100, left_size := 5, right_size := 3,
             reason := "Content differs" }],
        operations_performed := [], errors := [],
        files_copied := 0, directories_created := 0,
        bytes_transferred := 0 }) := by
  constructor
  · intro copyFails copyError cb conflicts
    induction conflicts with
    | nil => intro res; exact ⟨rfl, rfl⟩
    | cons c rest ih =>
      intro res
      constructor
      · show runConflictLoop _ _ _ _ (c :: rest) res = res
        simp only [runConflictLoop, SyncManager.resolve_conflict]
        exact (ih res).1
      · show runConflictLoop _ _ _ _ (c :: rest) res = res
        simp only [runConflictLoop, SyncManager.resolve_conflict]
        exact (ih res).2
  · rfl

/-! ## Claim C9 -/

/-- A filesystem oracle on which `"left"` is not a directory. -/
def noDirFS : FileSystem :=
  ⟨fun _ => false, fun _ => false, fun _ => [], fun _ => none⟩

/-- C9 counterexample: the claim states that `compare` with a
non-existent / non-directory path aborts with a structured failure (an
`InputError`).  The code has no error channel at all: on such a path it
returns an ordinary `DirectoryDiffResult` whose entries list is empty —
indistinguishable in type and shape from a successful comparison of two
empty directories. -/
theorem compare_directories_bad_path_returns_ordinary_result :
    DirectoryDiffEngine.compare_directories noDirFS "left" "right" =
      { entries := [], left_path := "left", right_path := "right" } := rfl

/-- C9 amended: whenever either supplied path is not a directory,
`compare_directories` returns the ordinary empty comparison result
(rather than aborting with an `InputError`). -/
theorem compare_directories_bad_path_empty (fs : FileSystem)
    (left_path right_path : String)
    (h : ¬ (fs.isDir left_path ∧ fs.isDir right_path)) :
    DirectoryDiffEngine.compare_directories fs left_path right_path =
      { entries := [], left_path := left_path, right_path := right_path } := by
  unfold DirectoryDiffEngine.compare_directories
  rw [if_pos h]

theorem compare_directories_bad_path_empty_witness :
    DirectoryDiffEngine.compare_directories noDirFS "a" "b" =
      { entries := [], left_path := "a", right_path := "b" } :=
  compare_directories_bad_path_empty noDirFS "a" "b" (by simp [noDirFS])

/-! ## Claim C8 -/

/-- The error strings produced by the failing copies of the operations
loop. -/
def opsErrors (copyFails : String → String → Bool)
    (copyError : String → String → String) (ops : List SyncOperation) :
    List String :=
  (ops.filter (fun op => op.operation_type = "copy" &&
      copyFails op.source_path op.destination_path)).map
    (fun op => "Failed to copy " ++ op.source_path ++ ": " ++
      copyError op.source_path op.destination_path)

/-- Whether executing the resolution of a conflict raises (a copy is
attempted and its oracle says it fails). -/
def conflictCopyFails (copyFails : String → String → Bool)
    (cb : Option (SyncConflict → SyncPolicy)) (pol : SyncPolicy)
    (c : SyncConflict) : Bool :=
  let r := SyncManager.resolve_conflict cb c pol
  (r = SyncPolicy.left_wins && copyFails c.left_path c.right_path) ||
  (r = SyncPolicy.right_wins && copyFails c.right_path c.left_path)

theorem runOpsLoop_success_errors (copyFails : String → String → Bool)
    (copyError : String → String → String) :
    ∀ (ops : List SyncOperation) (res : SyncResult),
    (runOpsLoop copyFails copyError ops res).success = res.success ∧
    (runOpsLoop copyFails copyError ops res).errors =
      res.errors ++ opsErrors copyFails copyError ops := by
  intro ops
  induction ops with
  | nil => intro res; simp [runOpsLoop, opsErrors]
  | cons op rest ih =>
    intro res
    by_cases hcopy : op.operation_type = "copy"
    · by_cases hfail : copyFails op.source_path op.destination_path
      · have := ih { res with errors := res.errors ++
          ["Failed to copy " ++ op.source_path ++ ": " ++
            copyError op.source_path op.destination_path] }
        simp only [runOpsLoop, if_pos hcopy, if_pos hfail] at *
        refine ⟨this.1, ?_⟩
        rw [this.2]
        simp [opsErrors, hcopy, hfail]
      · by_cases hdir : op.is_directory = true <;>
          simp only [runOpsLoop, if_pos hcopy, if_neg hfail, hdir,
            if_true, if_false, Bool.false_eq_true] <;>
          (refine ⟨(ih _).1, ?_⟩
           rw [(ih _).2]
           simp [opsErrors, hcopy, hfail])
    · simp only [runOpsLoop, if_neg hcopy]
      refine ⟨(ih res).1, ?_⟩
      rw [(ih res).2]
      have : opsErrors copyFails copyError (op :: rest) =
          opsErrors copyFails copyError rest := by
        simp [opsErrors, hcopy]
      rw [this]

theorem runConflictLoop_no_failure (copyFails : String → String → Bool)
    (copyError : String → String → String)
    (cb : Option (SyncConflict → SyncPolicy)) (pol : SyncPolicy) :
    ∀ (conflicts : List SyncConflict) (res : SyncResult),
    (∀ c ∈ conflicts, conflictCopyFails copyFails cb pol c = false) →
    (runConflictLoop copyFails copyError cb pol conflicts res).success =
      res.success ∧
    (runConflictLoop copyFails copyError cb pol conflicts res).errors =
      res.errors := by
  intro conflicts
  induction conflicts with
  | nil => intro res _; exact ⟨rfl, rfl⟩
  | cons c rest ih =>
    intro res hok
    have hc := hok c (List.mem_cons_self c rest)
    have hrest : ∀ c' ∈ rest, conflictCopyFails copyFails cb pol c' = false :=
      fun c' hc' => hok c' (List.mem_cons_of_mem c hc')
    cases hr : SyncManager.resolve_conflict cb c pol
    case skip =>
      have hstep : runConflictLoop copyFails copyError cb pol (c :: rest)
          res = runConflictLoop copyFails copyError cb pol rest res := by
        simp [runConflictLoop, hr]
      rw [hstep]; exact ih res hrest
    case left_wins =>
      have hcf : copyFails c.left_path c.right_path = false := by
        simpa [conflictCopyFails, hr] using hc
      have hstep : runConflictLoop copyFails copyError cb pol (c :: rest)
          res = runConflictLoop copyFails copyError cb pol rest
            { res with files_copied := res.files_copied + 1 } := by
        simp [runConflictLoop, hr, hcf]
      rw [hstep]; exact ih _ hrest
    case right_wins =>
      have hcf : copyFails c.right_path c.left_path = false := by
        simpa [conflictCopyFails, hr] using hc
      have hstep : runConflictLoop copyFails copyError cb pol (c :: rest)
          res = runConflictLoop copyFails copyError cb pol rest
            { res with files_copied := res.files_copied + 1 } := by
        simp [runConflictLoop, hr, hcf]
      rw [hstep]; exact ih _ hrest
    case newer_wins =>
      have hstep : runConflictLoop copyFails copyError cb pol (c :: rest)
          res = runConflictLoop copyFails copyError cb pol rest res := by
        simp [runConflictLoop, hr]
      rw [hstep]; exact ih res hrest
    case larger_wins =>
      have hstep : runConflictLoop copyFails copyError cb pol (c :: rest)
          res = runConflictLoop copyFails copyError cb pol rest res := by
        simp [runConflictLoop, hr]
      rw [hstep]; exact ih res hrest
    case prompt =>
      have hstep : runConflictLoop copyFails copyError cb pol (c :: rest)
          res = runConflictLoop copyFails copyError cb pol rest res := by
        simp [runConflictLoop, hr]
      rw [hstep]; exact ih res hrest

theorem runConflictLoop_aborts_on_failure (copyFails : String → String → Bool)
    (copyError : String → String → String)
    (cb : Option (SyncConflict → SyncPolicy)) (pol : SyncPolicy) :
    ∀ (pre : List SyncConflict) (c : SyncConflict)
      (post : List SyncConflict) (res : SyncResult),
    (∀ c' ∈ pre, conflictCopyFails copyFails cb pol c' = false) →
    conflictCopyFails copyFails cb pol c = true →
    runConflictLoop copyFails copyError cb pol (pre ++ c :: post) res =
      runConflictLoop copyFails copyError cb pol (pre ++ [c]) res ∧
    (runConflictLoop copyFails copyError cb pol (pre ++ c :: post)
      res).success = false := by
  intro pre
  induction pre with
  | nil =>
    intro c post res _ hfail
    simp only [conflictCopyFails, Bool.or_eq_true, Bool.and_eq_true,
      decide_eq_true_eq] at hfail
    simp only [List.nil_append]
    rcases hfail with ⟨hres, hcf⟩ | ⟨hres, hcf⟩ <;>
      refine ⟨?_, ?_⟩ <;> simp [runConflictLoop, hres, hcf]
  | cons p pre' ih =>
    intro c post res hok hfail
    have hp := hok p (List.mem_cons_self p pre')
    have hpre' : ∀ c' ∈ pre', conflictCopyFails copyFails cb pol c' = false :=
      fun c' hc' => hok c' (List.mem_cons_of_mem p hc')
    cases hr : SyncManager.resolve_conflict cb p pol
    case skip =>
      have hstep : ∀ tail, runConflictLoop copyFails copyError cb pol
          (p :: tail) res = runConflictLoop copyFails copyError cb pol
            tail res := by
        intro tail; simp [runConflictLoop, hr]
      rw [List.cons_append, hstep, List.cons_append, hstep]
      exact ih c post res hpre' hfail
    case left_wins =>
      have hcf : copyFails p.left_path p.right_path = false := by
        simpa [conflictCopyFails, hr] using hp
      have hstep : ∀ tail, runConflictLoop copyFails copyError cb pol
          (p :: tail) res = runConflictLoop copyFails copyError cb pol
            tail { res with files_copied := res.files_copied + 1 } := by
        intro tail; simp [runConflictLoop, hr, hcf]
      rw [List.cons_append, hstep, List.cons_append, hstep]
      exact ih c post _ hpre' hfail
    case right_wins =>
      have hcf : copyFails p.right_path p.left_path = false := by
        simpa [conflictCopyFails, hr] using hp
      have hstep : ∀ tail, runConflictLoop copyFails copyError cb pol
          (p :: tail) res = runConflictLoop copyFails copyError cb pol
            tail { res with files_copied := res.files_copied + 1 } := by
        intro tail; simp [runConflictLoop, hr, hcf]
      rw [List.cons_append, hstep, List.cons_append, hstep]
      exact ih c post _ hpre' hfail
    case newer_wins =>
      have hstep : ∀ tail, runConflictLoop copyFails copyError cb pol
          (p :: tail) res = runConflictLoop copyFails copyError cb pol
            tail res := by
        intro tail; simp [runConflictLoop, hr]
      rw [List.cons_append, hstep, List.cons_append, hstep]
      exact ih c post res hpre' hfail
    case larger_wins =>
      have hstep : ∀ tail, runConflictLoop copyFails copyError cb pol
          (p :: tail) res = runConflictLoop copyFails copyError cb pol
            tail res := by
        intro tail; simp [runConflictLoop, hr]
      rw [List.cons_append, hstep, List.cons_append, hstep]
      exact ih c post res hpre' hfail
    case prompt =>
      have hstep : ∀ tail, runConflictLoop copyFails copyError cb pol
          (p :: tail) res = runConflictLoop copyFails copyError cb pol
            tail res := by
        intro tail; simp [runConflictLoop, hr]
      rw [List.cons_append, hstep, List.cons_append, hstep]
      exact ih c post res hpre' hfail

/-- A concrete content-differs conflict used for C8. -/
def failingConflict : SyncConflict :=
  ⟨"b.txt", "L/b.txt", "R/b.txt", 1, 2, 3, 4, "Content differs"⟩

/-- C8 counterexample: the claim states that when the initial preview
succeeds, `success` is always `true` and every individual failure is
merely recorded.  But a failing copy during *conflict resolution* is only
caught by the top-level handler: with a successful preview yielding no
operations and one conflict, policy `LEFT_WINS` and an always-failing
copy oracle, the returned result has `success = false`. -/
theorem sync_conflict_copy_failure_flips_success :
    (syncFoldersFromPreview (fun _ _ => true) (fun _ _ => "disk full") none
      SyncPolicy.left_wins [] [failingConflict]).success = false := rfl

/-- C8 amended: (i) failures of planned copy operations are caught one by
one — the operations loop never changes `success` and appends exactly the
error strings of the failing copies, continuing with the rest; (ii) the
conflict loop leaves `success` and `errors` unchanged when no attempted
resolution copy fails; (iii) but the first conflict whose resolution copy
fails ends the run: the remaining conflicts are not processed and the
result has `success = false`; (iv) a failing top-level preview also
yields `success = false` with the exception text recorded. -/
theorem sync_folders_error_handling :
    (∀ (copyFails : String → String → Bool)
      (copyError : String → String → String)
      (ops : List SyncOperation) (res : SyncResult),
      (runOpsLoop copyFails copyError ops res).success = res.success ∧
      (runOpsLoop copyFails copyError ops res).errors =
        res.errors ++ opsErrors copyFails copyError ops) ∧
    (∀ (copyFails : String → String → Bool)
      (copyError : String → String → String)
      (cb : Option (SyncConflict → SyncPolicy)) (pol : SyncPolicy)
      (conflicts : List SyncConflict) (res : SyncResult),
      (∀ c ∈ conflicts, conflictCopyFails copyFails cb pol c = false) →
      (runConflictLoop copyFails copyError cb pol conflicts res).success =
        res.success ∧
      (runConflictLoop copyFails copyError cb pol conflicts res).errors =
        res.errors) ∧
    (∀ (copyFails : String → String → Bool)
      (copyError : String → String → String)
      (cb : Option (SyncConflict → SyncPolicy)) (pol : SyncPolicy)
      (pre : List SyncConflict) (c : SyncConflict)
      (post : List SyncConflict) (res : SyncResult),
      (∀ c' ∈ pre, conflictCopyFails copyFails cb pol c' = false) →
      conflictCopyFails copyFails cb pol c = true →
      runConflictLoop copyFails copyError cb pol (pre ++ c :: post) res =
        runConflictLoop copyFails copyError cb pol (pre ++ [c]) res ∧
      (runConflictLoop copyFails copyError cb pol (pre ++ c :: post)
        res).success = false) ∧
    (∀ (e : String) (copyFails : String → String → Bool)
      (copyError : String → String → String)
      (cb : Option (SyncConflict → SyncPolicy)) (pol : SyncPolicy),
      SyncManager.sync_folders (Except.error e) copyFails copyError cb pol =
        { success := false, errors := [e] }) := by
  refine ⟨?_, ?_, ?_, ?_⟩
  · intro copyFails copyError ops res
    exact runOpsLoop_success_errors copyFails copyError ops res
  · intro copyFails copyError cb pol conflicts res h
    exact runConflictLoop_no_failure copyFails copyError cb pol conflicts res h
  · intro copyFails copyError cb pol pre c post res h1 h2
    exact runConflictLoop_aborts_on_failure copyFails copyError cb pol pre c
      post res h1 h2
  · intro e copyFails copyError cb pol
    rfl

theorem sync_folders_error_handling_witness :
    runConflictLoop (fun _ _ => true) (fun _ _ => "disk full") none
        SyncPolicy.left_wins ([] ++ failingConflict :: [failingConflict])
        { success := true } =
      runConflictLoop (fun _ _ => true) (fun _ _ => "disk full") none
        SyncPolicy.left_wins ([] ++ [failingConflict]) { success := true } ∧
    (runConflictLoop (fun _ _ => true) (fun _ _ => "disk full") none
        SyncPolicy.left_wins ([] ++ failingConflict :: [failingConflict])
        { success := true }).success = false :=
  sync_folders_error_handling.2.2.1 (fun _ _ => true) (fun _ _ => "disk full")
    none SyncPolicy.left_wins [] failingConflict [failingConflict]
    { success := true } (by simp) (by rfl)

/-! ## Claim C10 -/

theorem toLower_of_not_wordChar {c : Char} (h : isWordChar c = false) :
    c.toLower = c := by
  have hu : c.isUpper = false := by
    simp only [isWordChar, Char.isAlphanum, Char.isAlpha,
      Bool.or_eq_false_iff] at h
    exact h.1.1.1
  have hcn : c.toNat = c.val.toBitVec.toNat := rfl
  have hval : ¬(65 ≤ c.toNat ∧ c.toNat ≤ 90) := by
    rintro ⟨h1, h2⟩
    rw [Char.isUpper] at hu
    simp only [Bool.and_eq_false_iff, decide_eq_false_iff_not, not_le] at hu
    rcases hu with hu | hu
    · have h65 : c.val.toBitVec.toNat < 65 := by
        simpa [UInt32.lt_def, BitVec.lt_def] using hu
      omega
    · have h90 : 90 < c.val.toBitVec.toNat := by
        simpa [UInt32.lt_def, BitVec.lt_def] using hu
      omega
  simp [Char.toLower, hval]

theorem wordRunsAux_nil_of_no_wordChar :
    ∀ (l : List Char), (∀ c ∈ l, isWordChar c = false) →
    wordRunsAux l [] = [] := by
  intro l
  induction l with
  | nil => intro _; rfl
  | cons c rest ih =>
    intro h
    have hc := h c (List.mem_cons_self c rest)
    simp only [wordRunsAux, hc, Bool.false_eq_true, if_false, if_pos rfl,
      List.nil_append]
    exact ih (fun c' hc' => h c' (List.mem_cons_of_mem c hc'))

theorem seqRatio_nonneg (a b : List Char) : 0 ≤ seqRatio a b := by
  unfold seqRatio
  split
  · norm_num
  · positivity

theorem map_toLower_of_no_wordChar :
    ∀ (l : List Char), (∀ c ∈ l, isWordChar c = false) →
    l.map Char.toLower = l := by
  intro l
  induction l with
  | nil => intro _; rfl
  | cons c rest ih =>
    intro h
    rw [List.map_cons,
      toLower_of_not_wordChar (h c (List.mem_cons_self c rest)),
      ih (fun c' hc' => h c' (List.mem_cons_of_mem c hc'))]

theorem wordSimilarity_no_wordChars (t1 t2 : String)
    (h1 : ∀ c ∈ t1.data, isWordChar c = false)
    (h2 : ∀ c ∈ t2.data, isWordChar c = false) :
    wordSimilarity t1 t2 = 1 := by
  unfold wordSimilarity wordRuns
  rw [map_toLower_of_no_wordChar t1.data h1,
    map_toLower_of_no_wordChar t2.data h2,
    wordRunsAux_nil_of_no_wordChar t1.data h1,
    wordRunsAux_nil_of_no_wordChar t2.data h2]
  simp

/-- C10: for a pair of lines that are non-empty after stripping but
contain no `\w` word characters, `_word_similarity` sees two empty token
sets and returns `1.0`, so the combined score is exactly
`0.6 * char_ratio + 0.4`; since `char_ratio ≥ 0` the score is at least
`0.4` — in particular it is not below the greedy loop's `0.3` cut-off,
so such a pair is always eligible for matching even if the two lines
share no characters at all. -/
theorem punctuation_only_lines_score (l r : DiffLine)
    (hl : stripStr l.content ≠ "") (hr : stripStr r.content ≠ "")
    (hlw : ∀ c ∈ (stripStr l.content).data, isWordChar c = false)
    (hrw : ∀ c ∈ (stripStr r.content).data, isWordChar c = false) :
    computeSimilarity l r =
      seqRatio (stripStr l.content).data (stripStr r.content).data * 0.6 +
        0.4 ∧
    (0.4 : ℚ) ≤ computeSimilarity l r ∧
    ¬ computeSimilarity l r < 0.3 := by
  have heq : computeSimilarity l r =
      seqRatio (stripStr l.content).data (stripStr r.content).data * 0.6 +
        0.4 := by
    unfold computeSimilarity
    rw [if_neg (by push_neg; exact ⟨hl, hr⟩)]
    rw [wordSimilarity_no_wordChars _ _ hlw hrw]
    ring
  have hge : (0.4 : ℚ) ≤ computeSimilarity l r := by
    rw [heq]
    have := seqRatio_nonneg (stripStr l.content).data (stripStr r.content).data
    nlinarith
  exact ⟨heq, hge, by rw [not_lt]; linarith⟩

theorem punctuation_only_lines_score_witness :
    computeSimilarity ⟨DiffType.REPLACE, ";;;", some 1, none⟩
        ⟨DiffType.REPLACE, " !!", none, some 1⟩ =
      seqRatio (stripStr ";;;").data (stripStr " !!").data * 0.6 + 0.4 ∧
    (0.4 : ℚ) ≤ computeSimilarity ⟨DiffType.REPLACE, ";;;", some 1, none⟩
      ⟨DiffType.REPLACE, " !!", none, some 1⟩ ∧
    ¬ computeSimilarity ⟨DiffType.REPLACE, ";;;", some 1, none⟩
        ⟨DiffType.REPLACE, " !!", none, some 1⟩ < 0.3 :=
  punctuation_only_lines_score _ _ (by decide) (by decide) (by decide)
    (by decide)

/-! ## Claim C4 -/

/-- Spec-side description of the `replace` walk (from the claim's words):
emit left then right `DiffLine` pairwise; once the shorter side is
exhausted the remaining side contributes alone. -/
def pairwiseReplaceSpec : List String → List String → Nat → Nat → List DiffLine
  | [], [], _, _ => []
  | l :: ls, [], lc, rc =>
    ⟨DiffType.REPLACE, l, some (lc + 1), none⟩ ::
      pairwiseReplaceSpec ls [] (lc + 1) rc
  | [], r :: rs, lc, rc =>
    ⟨DiffType.REPLACE, r, none, some (rc + 1)⟩ ::
      pairwiseReplaceSpec [] rs lc (rc + 1)
  | l :: ls, r :: rs, lc, rc =>
    ⟨DiffType.REPLACE, l, some (lc + 1), none⟩ ::
      ⟨DiffType.REPLACE, r, none, some (rc + 1)⟩ ::
      pairwiseReplaceSpec ls rs (lc + 1) (rc + 1)

/-- Spec-side description of the `insert` walk: one right-numbered
`INSERT` line per inserted line. -/
def insertLinesSpec : List String → Nat → List DiffLine
  | [], _ => []
  | line :: ls, rc =>
    ⟨DiffType.INSERT, line, none, some (rc + 1)⟩ :: insertLinesSpec ls (rc + 1)

/-- Spec-side description of the `delete` walk: one left-numbered
`DELETE` line per deleted line. -/
def deleteLinesSpec : List String → Nat → List DiffLine
  | [], _ => []
  | line :: ls, lc =>
    ⟨DiffType.DELETE, line, some (lc + 1), none⟩ :: deleteLinesSpec ls (lc + 1)

theorem prodMk3_eq {A B C : Type} {a a' : A} {b b' : B} {c c' : C}
    (ha : a = a') (hb : b = b') (hc : c = c') :
    (a, b, c) = (a', b', c') := by
  rw [ha, hb, hc]

theorem insertWalk_eq : ∀ (ls : List String) (rc cc : Nat),
    insertWalk ls rc cc = (insertLinesSpec ls rc, rc + ls.length,
      cc + ls.length) := by
  intro ls
  induction ls with
  | nil => intro rc cc; simp [insertWalk, insertLinesSpec]
  | cons line ls ih =>
    intro rc cc
    simp only [insertWalk, insertLinesSpec, ih, List.length_cons]
    exact prodMk3_eq rfl (by omega) (by omega)

theorem deleteWalk_eq : ∀ (ls : List String) (lc cc : Nat),
    deleteWalk ls lc cc = (deleteLinesSpec ls lc, lc + ls.length,
      cc + ls.length) := by
  intro ls
  induction ls with
  | nil => intro lc cc; simp [deleteWalk, deleteLinesSpec]
  | cons line ls ih =>
    intro lc cc
    simp only [deleteWalk, deleteLinesSpec, ih, List.length_cons]
    exact prodMk3_eq rfl (by omega) (by omega)

theorem drop_cons_getD (l : List String) (s : Nat) (h : s < l.length) :
    l.drop s = l.getD s "" :: l.drop (s + 1) := by
  rw [List.getD_eq_getElem?_getD, List.getElem?_eq_getElem h]
  exact List.drop_eq_getElem_cons h

theorem sliceList_getD (L : List String) (i1 i2 s : Nat)
    (h : s < (sliceList L i1 i2).length) :
    (sliceList L i1 i2).getD s "" = L.getD (i1 + s) "" := by
  unfold sliceList at *
  have hs1 : s < i2 - i1 := lt_of_lt_of_le h (by simpa using List.length_take_le _ _)
  have hs2 : s < (L.drop i1).length := by
    simp only [List.length_take, lt_min_iff] at h
    exact h.2
  have hs3 : i1 + s < L.length := by
    simp only [List.length_drop] at hs2
    omega
  rw [List.getD_eq_getElem?_getD, List.getElem?_eq_getElem h,
    List.getD_eq_getElem?_getD, List.getElem?_eq_getElem hs3]
  simp only [Option.getD_some]
  rw [List.getElem_take, List.getElem_drop]

theorem replaceWalk_spec (L R : List String) (i1 i2 j1 j2 : Nat) :
    ∀ (cnt s lc rc : Nat),
    s + cnt = max (sliceList L i1 i2).length (sliceList R j1 j2).length →
    replaceWalk L R i1 j1 (sliceList L i1 i2).length
        (sliceList R j1 j2).length (List.range' s cnt) lc rc =
      (pairwiseReplaceSpec ((sliceList L i1 i2).drop s)
          ((sliceList R j1 j2).drop s) lc rc,
        lc + ((sliceList L i1 i2).length - s),
        rc + ((sliceList R j1 j2).length - s)) := by
  set Ls := sliceList L i1 i2 with hLs
  set Rs := sliceList R j1 j2 with hRs
  have hml := Nat.le_max_left Ls.length Rs.length
  have hmr := Nat.le_max_right Ls.length Rs.length
  intro cnt
  induction cnt with
  | zero =>
    intro s lc rc hmax
    rw [List.drop_eq_nil_of_le (by omega), List.drop_eq_nil_of_le (by omega),
      show List.range' s 0 = ([] : List Nat) from rfl]
    simp only [replaceWalk, pairwiseReplaceSpec]
    exact prodMk3_eq rfl (by omega) (by omega)
  | succ cnt ih =>
    intro s lc rc hmax
    rw [List.range'_succ]
    by_cases hm : s < Ls.length <;> by_cases hn : s < Rs.length
    · have hdl := drop_cons_getD Ls s hm
      have hdr := drop_cons_getD Rs s hn
      have hgl : Ls.getD s "" = L.getD (i1 + s) "" :=
        sliceList_getD L i1 i2 s hm
      have hgr : Rs.getD s "" = R.getD (j1 + s) "" :=
        sliceList_getD R j1 j2 s hn
      rw [hdl, hdr]
      simp only [replaceWalk, if_pos hm, if_pos hn, pairwiseReplaceSpec,
        ih (s + 1) (lc + 1) (rc + 1) (by omega), hgl, hgr,
        List.singleton_append, List.cons_append, List.nil_append]
      exact prodMk3_eq rfl (by omega) (by omega)
    · have hdl := drop_cons_getD Ls s hm
      have hgl : Ls.getD s "" = L.getD (i1 + s) "" :=
        sliceList_getD L i1 i2 s hm
      rw [hdl, show Rs.drop s = [] from List.drop_eq_nil_of_le (by omega)]
      have hdr1 : Rs.drop (s + 1) = [] := List.drop_eq_nil_of_le (by omega)
      have hih := ih (s + 1) (lc + 1) rc (by omega)
      rw [hdr1] at hih
      simp only [replaceWalk, if_pos hm, if_neg hn, pairwiseReplaceSpec,
        hih, hgl, List.singleton_append, List.cons_append, List.nil_append,
        List.append_nil]
      exact prodMk3_eq rfl (by omega) (by omega)
    · have hdr := drop_cons_getD Rs s hn
      have hgr : Rs.getD s "" = R.getD (j1 + s) "" :=
        sliceList_getD R j1 j2 s hn
      rw [hdr, show Ls.drop s = [] from List.drop_eq_nil_of_le (by omega)]
      have hdl1 : Ls.drop (s + 1) = [] := List.drop_eq_nil_of_le (by omega)
      have hih := ih (s + 1) lc (rc + 1) (by omega)
      rw [hdl1] at hih
      simp only [replaceWalk, if_neg hm, if_pos hn, pairwiseReplaceSpec,
        hih, hgr, List.singleton_append, List.cons_append, List.nil_append]
      exact prodMk3_eq rfl (by omega) (by omega)
    · exfalso
      omega

/-- C4: in the line diff's opcode walk, a `replace` opcode with left block
`L'` and right block `R'` emits the pairwise left-then-right interleaving
of the two blocks (the shorter side stops contributing once exhausted)
and increments `change_count` exactly once for the whole opcode, while
`insert` and `delete` opcodes emit one line per block line and increment
`change_count` once per emitted line. -/
theorem replace_insert_delete_accounting :
    ∀ (L R : List String) (lc rc cc i1 i2 j1 j2 : Nat),
    processOpcode L R lc rc cc ⟨OpTag.replace, i1, i2, j1, j2⟩ =
      (pairwiseReplaceSpec (sliceList L i1 i2) (sliceList R j1 j2) lc rc,
        lc + (sliceList L i1 i2).length, rc + (sliceList R j1 j2).length,
        cc + 1) ∧
    processOpcode L R lc rc cc ⟨OpTag.insert, i1, i2, j1, j2⟩ =
      (insertLinesSpec (sliceList R j1 j2) rc, lc,
        rc + (sliceList R j1 j2).length, cc + (sliceList R j1 j2).length) ∧
    processOpcode L R lc rc cc ⟨OpTag.delete, i1, i2, j1, j2⟩ =
      (deleteLinesSpec (sliceList L i1 i2) lc,
        lc + (sliceList L i1 i2).length, rc,
        cc + (sliceList L i1 i2).length) := by
  intro L R lc rc cc i1 i2 j1 j2
  refine ⟨?_, ?_, ?_⟩
  · have h := replaceWalk_spec L R i1 i2 j1 j2
      (max (sliceList L i1 i2).length (sliceList R j1 j2).length) 0 lc rc
      (by omega)
    simp only [List.drop_zero, Nat.sub_zero] at h
    simp only [processOpcode, List.range_eq_range', h]
  · simp only [processOpcode, insertWalk_eq]
  · simp only [processOpcode, deleteWalk_eq]

/-! ## Claim C3 -/

/-- Number of `DiffLine` entries carrying a left line number. -/
def countLeftSet (ls : List DiffLine) : Nat :=
  ls.countP (fun dl => dl.left_line_num.isSome)

/-- Number of `DiffLine` entries carrying a right line number. -/
def countRightSet (ls : List DiffLine) : Nat :=
  ls.countP (fun dl => dl.right_line_num.isSome)

/-- Number of `DiffLine` entries of a given type. -/
def countOfType (t : DiffType) (ls : List DiffLine) : Nat :=
  ls.countP (fun dl => dl.type = t)

theorem equalWalk_counts : ∀ (ls : List String) (lc rc : Nat),
    (equalWalk ls lc rc).2.1 = lc + countLeftSet (equalWalk ls lc rc).1 ∧
    (equalWalk ls lc rc).2.2 = rc + countRightSet (equalWalk ls lc rc).1 ∧
    countOfType DiffType.INSERT (equalWalk ls lc rc).1 = 0 ∧
    countOfType DiffType.DELETE (equalWalk ls lc rc).1 = 0 := by
  intro ls
  induction ls with
  | nil =>
    intro lc rc
    simp [equalWalk, countLeftSet, countRightSet, countOfType]
  | cons line ls ih =>
    intro lc rc
    by_cases h : line = ""
    · have := ih lc rc
      simp only [equalWalk, h, ne_eq, not_true_eq_false, if_false,
        countLeftSet, countRightSet, countOfType, List.countP_cons] at *
      simp only [Option.isSome_none, Bool.false_eq_true, if_false,
        decide_eq_true_eq]
      refine ⟨by omega, by omega, ?_, ?_⟩
      · rw [if_neg (by simp)]
        omega
      · rw [if_neg (by simp)]
        omega
    · have := ih (lc + 1) (rc + 1)
      simp only [equalWalk, h, ne_eq, not_false_eq_true, if_true,
        countLeftSet, countRightSet, countOfType, List.countP_cons] at *
      simp only [Option.isSome_some, if_true]
      refine ⟨by omega, by omega, ?_, ?_⟩
      · rw [if_neg (by simp)]
        omega
      · rw [if_neg (by simp)]
        omega

theorem insertLinesSpec_counts : ∀ (ls : List String) (rc : Nat),
    countLeftSet (insertLinesSpec ls rc) = 0 ∧
    countRightSet (insertLinesSpec ls rc) = ls.length ∧
    countOfType DiffType.INSERT (insertLinesSpec ls rc) = ls.length ∧
    countOfType DiffType.DELETE (insertLinesSpec ls rc) = 0 := by
  intro ls
  induction ls with
  | nil => intro rc; simp [insertLinesSpec, countLeftSet, countRightSet,
      countOfType]
  | cons line ls ih =>
    intro rc
    have := ih (rc + 1)
    simp only [insertLinesSpec, countLeftSet, countRightSet, countOfType,
      List.countP_cons, List.length_cons] at *
    refine ⟨?_, ?_, ?_, ?_⟩
    · rw [if_neg (by simp)]; omega
    · rw [if_pos (by simp)]; omega
    · rw [if_pos (by simp)]; omega
    · rw [if_neg (by simp)]; omega

theorem deleteLinesSpec_counts : ∀ (ls : List String) (lc : Nat),
    countLeftSet (deleteLinesSpec ls lc) = ls.length ∧
    countRightSet (deleteLinesSpec ls lc) = 0 ∧
    countOfType DiffType.INSERT (deleteLinesSpec ls lc) = 0 ∧
    countOfType DiffType.DELETE (deleteLinesSpec ls lc) = ls.length := by
  intro ls
  induction ls with
  | nil => intro lc; simp [deleteLinesSpec, countLeftSet, countRightSet,
      countOfType]
  | cons line ls ih =>
    intro lc
    have := ih (lc + 1)
    simp only [deleteLinesSpec, countLeftSet, countRightSet, countOfType,
      List.countP_cons, List.length_cons] at *
    refine ⟨?_, ?_, ?_, ?_⟩
    · rw [if_pos (by simp)]; omega
    · rw [if_neg (by simp)]; omega
    · rw [if_neg (by simp)]; omega
    · rw [if_pos (by simp)]; omega

theorem pairwiseReplaceSpec_counts : ∀ (ls rs : List String) (lc rc : Nat),
    countLeftSet (pairwiseReplaceSpec ls rs lc rc) = ls.length ∧
    countRightSet (pairwiseReplaceSpec ls rs lc rc) = rs.length ∧
    countOfType DiffType.INSERT (pairwiseReplaceSpec ls rs lc rc) = 0 ∧
    countOfType DiffType.DELETE (pairwiseReplaceSpec ls rs lc rc) = 0 := by
  intro ls
  induction ls with
  | nil =>
    intro rs
    induction rs with
    | nil =>
      intro lc rc
      simp [pairwiseReplaceSpec, countLeftSet, countRightSet, countOfType]
    | cons r rs ihr =>
      intro lc rc
      have := ihr lc (rc + 1)
      simp only [pairwiseReplaceSpec, countLeftSet, countRightSet,
        countOfType, List.countP_cons, List.length_cons] at *
      refine ⟨?_, ?_, ?_, ?_⟩
      · rw [if_neg (by simp)]; omega
      · rw [if_pos (by simp)]; omega
      · rw [if_neg (by simp)]; omega
      · rw [if_neg (by simp)]; omega
  | cons l ls ihl =>
    intro rs
    cases rs with
    | nil =>
      intro lc rc
      have := ihl [] (lc + 1) rc
      simp only [pairwiseReplaceSpec, countLeftSet, countRightSet,
        countOfType, List.countP_cons, List.length_cons, List.length_nil] at *
      refine ⟨?_, ?_, ?_, ?_⟩
      · rw [if_pos (by simp)]; omega
      · rw [if_neg (by simp)]; omega
      · rw [if_neg (by simp)]; omega
      · rw [if_neg (by simp)]; omega
    | cons r rs =>
      intro lc rc
      obtain ⟨h1, h2, h3, h4⟩ := ihl rs (lc + 1) (rc + 1)
      simp only [countLeftSet, countRightSet, countOfType] at h1 h2 h3 h4
      simp only [pairwiseReplaceSpec, countLeftSet, countRightSet,
        countOfType, List.countP_cons, List.length_cons]
      refine ⟨?_, ?_, ?_, ?_⟩ <;>
        simp only [Option.isSome_some, Option.isSome_none, if_true, if_false,
          Bool.false_eq_true, decide_eq_true_eq, reduceCtorEq,
          reduceIte] <;>
        omega

theorem countLeftSet_append (a b : List DiffLine) :
    countLeftSet (a ++ b) = countLeftSet a + countLeftSet b :=
  List.countP_append _ _ _

theorem countRightSet_append (a b : List DiffLine) :
    countRightSet (a ++ b) = countRightSet a + countRightSet b :=
  List.countP_append _ _ _

theorem countOfType_append (t : DiffType) (a b : List DiffLine) :
    countOfType t (a ++ b) = countOfType t a + countOfType t b :=
  List.countP_append _ _ _

theorem walkOpcodes_counts (L R : List String) :
    ∀ (ops : List Opcode) (lc rc cc : Nat),
    (walkOpcodes L R ops lc rc cc).2.1 =
      lc + countLeftSet (walkOpcodes L R ops lc rc cc).1 ∧
    (walkOpcodes L R ops lc rc cc).2.2.1 =
      rc + countRightSet (walkOpcodes L R ops lc rc cc).1 ∧
    (walkOpcodes L R ops lc rc cc).2.2.2 =
      cc + countOfType DiffType.INSERT (walkOpcodes L R ops lc rc cc).1 +
        countOfType DiffType.DELETE (walkOpcodes L R ops lc rc cc).1 +
        ops.countP (fun op => op.tag = OpTag.replace) := by
  intro ops
  induction ops with
  | nil =>
    intro lc rc cc
    simp [walkOpcodes, countLeftSet, countRightSet, countOfType]
  | cons op rest ih =>
    obtain ⟨tag, i1, i2, j1, j2⟩ := op
    intro lc rc cc
    cases tag
    case equal =>
      have hp : processOpcode L R lc rc cc ⟨OpTag.equal, i1, i2, j1, j2⟩ =
          ((equalWalk (sliceList L i1 i2) lc rc).1,
            (equalWalk (sliceList L i1 i2) lc rc).2.1,
            (equalWalk (sliceList L i1 i2) lc rc).2.2, cc) := rfl
      obtain ⟨e1, e2, e3, e4⟩ := equalWalk_counts (sliceList L i1 i2) lc rc
      obtain ⟨w1, w2, w3⟩ := ih (equalWalk (sliceList L i1 i2) lc rc).2.1
        (equalWalk (sliceList L i1 i2) lc rc).2.2 cc
      simp only [walkOpcodes, hp, countLeftSet_append, countRightSet_append,
        countOfType_append, List.countP_cons]
      rw [if_neg (by simp)]
      exact ⟨by omega, by omega, by omega⟩
    case insert =>
      have hp : processOpcode L R lc rc cc ⟨OpTag.insert, i1, i2, j1, j2⟩ =
          (insertLinesSpec (sliceList R j1 j2) rc, lc,
            rc + (sliceList R j1 j2).length,
            cc + (sliceList R j1 j2).length) := by
        simp only [processOpcode, insertWalk_eq]
      obtain ⟨e1, e2, e3, e4⟩ := insertLinesSpec_counts (sliceList R j1 j2) rc
      obtain ⟨w1, w2, w3⟩ := ih lc (rc + (sliceList R j1 j2).length)
        (cc + (sliceList R j1 j2).length)
      simp only [walkOpcodes, hp, countLeftSet_append, countRightSet_append,
        countOfType_append, List.countP_cons]
      rw [if_neg (by simp)]
      exact ⟨by omega, by omega, by omega⟩
    case delete =>
      have hp : processOpcode L R lc rc cc ⟨OpTag.delete, i1, i2, j1, j2⟩ =
          (deleteLinesSpec (sliceList L i1 i2) lc,
            lc + (sliceList L i1 i2).length, rc,
            cc + (sliceList L i1 i2).length) := by
        simp only [processOpcode, deleteWalk_eq]
      obtain ⟨e1, e2, e3, e4⟩ := deleteLinesSpec_counts (sliceList L i1 i2) lc
      obtain ⟨w1, w2, w3⟩ := ih (lc + (sliceList L i1 i2).length) rc
        (cc + (sliceList L i1 i2).length)
      simp only [walkOpcodes, hp, countLeftSet_append, countRightSet_append,
        countOfType_append, List.countP_cons]
      rw [if_neg (by simp)]
      exact ⟨by omega, by omega, by omega⟩
    case replace =>
      have h := replaceWalk_spec L R i1 i2 j1 j2
        (max (sliceList L i1 i2).length (sliceList R j1 j2).length) 0 lc rc
        (by omega)
      simp only [List.drop_zero, Nat.sub_zero] at h
      have hp : processOpcode L R lc rc cc ⟨OpTag.replace, i1, i2, j1, j2⟩ =
          (pairwiseReplaceSpec (sliceList L i1 i2) (sliceList R j1 j2) lc rc,
            lc + (sliceList L i1 i2).length,
            rc + (sliceList R j1 j2).length, cc + 1) := by
        simp only [processOpcode, List.range_eq_range', h]
      obtain ⟨e1, e2, e3, e4⟩ := pairwiseReplaceSpec_counts
        (sliceList L i1 i2) (sliceList R j1 j2) lc rc
      obtain ⟨w1, w2, w3⟩ := ih (lc + (sliceList L i1 i2).length)
        (rc + (sliceList R j1 j2).length) (cc + 1)
      simp only [walkOpcodes, hp, countLeftSet_append, countRightSet_append,
        countOfType_append, List.countP_cons]
      rw [if_pos (by simp)]
      exact ⟨by omega, by omega, by omega⟩

/-- C3 counterexample: the count invariants do not hold as claimed.
(1) On left `[""]`, right `[" "]`, the aligner's output has
`right_line_count = 1` but two of its `DiffLine`s carry a right line
number (`_align_replace_block` re-emits the right `REPLACE` line of the
run as a passthrough after already emitting it as an `INSERT`, because
`align_lines` dispatches every `REPLACE` line of a run through it).
(2) On `["a","b"]` vs `["c","d"]`, `change_count = 1` (one increment per
`replace` opcode) but all four emitted lines are non-Equal. -/
theorem diff_count_invariant_counterexample :
    ((LineAligner.align_lines [""] [" "]
        (DiffResult.from_files [""] [" "] none)).right_line_count ≠
      countRightSet (LineAligner.align_lines [""] [" "]
        (DiffResult.from_files [""] [" "] none)).lines) ∧
    ((DiffResult.from_files ["a", "b"] ["c", "d"] none).change_count ≠
      ((DiffResult.from_files ["a", "b"] ["c", "d"] none).lines.filter
        (fun dl => dl.is_change)).length) := by
  refine ⟨?_, by decide⟩
  have hd : DiffResult.from_files [""] [" "] none =
      ⟨[⟨DiffType.REPLACE, "", some 1, none⟩,
        ⟨DiffType.REPLACE, " ", none, some 1⟩], 1, 1, 1⟩ := by decide
  have hscore : computeSimilarity ⟨DiffType.REPLACE, "", some 1, none⟩
      ⟨DiffType.REPLACE, " ", none, some 1⟩ = 0 := rfl
  have hscan : scanBest [[(0 : ℚ)]] 1 1 [] [] = (0, none) := by
    simp [scanBest, List.range_succ, lt_self_iff_false]
  have hgreedy : ∀ fuel, greedyLoop
      [⟨DiffType.REPLACE, "", some 1, none⟩]
      [⟨DiffType.REPLACE, " ", none, some 1⟩]
      [[(0 : ℚ)]] (fuel + 1) [] [] = ([], [], []) := by
    intro fuel
    rw [greedyLoop]
    simp only [List.length_cons, List.length_nil, hscan]
    rw [if_pos (show (0 : ℚ) < 0.3 by norm_num)]
  have hm : similarityMatrix [⟨DiffType.REPLACE, "", some 1, none⟩]
      [⟨DiffType.REPLACE, " ", none, some 1⟩] = [[(0 : ℚ)]] := by
    simp [similarityMatrix, hscore]
  have hg2 : greedyLoop [⟨DiffType.REPLACE, "", some 1, none⟩]
      [⟨DiffType.REPLACE, " ", none, some 1⟩]
      (similarityMatrix [⟨DiffType.REPLACE, "", some 1, none⟩]
        [⟨DiffType.REPLACE, " ", none, some 1⟩])
      ([(⟨DiffType.REPLACE, "", some 1, none⟩ : DiffLine)].length + 1) [] [] =
      ([], [], []) := by
    rw [hm]
    exact hgreedy _
  have hblock1 : alignReplaceBlock
      [⟨DiffType.REPLACE, "", some 1, none⟩,
       ⟨DiffType.REPLACE, " ", none, some 1⟩] 0 0
      ⟨DiffType.REPLACE, "", some 1, none⟩ =
      ([⟨DiffType.DELETE, "", some 1, none⟩,
        ⟨DiffType.INSERT, " ", none, some 1⟩], 1, 1) := by
    have h0 : alignReplaceBlock
        [⟨DiffType.REPLACE, "", some 1, none⟩,
         ⟨DiffType.REPLACE, " ", none, some 1⟩] 0 0
        ⟨DiffType.REPLACE, "", some 1, none⟩ =
        (let g := greedyLoop [⟨DiffType.REPLACE, "", some 1, none⟩]
            [⟨DiffType.REPLACE, " ", none, some 1⟩]
            (similarityMatrix [⟨DiffType.REPLACE, "", some 1, none⟩]
              [⟨DiffType.REPLACE, " ", none, some 1⟩])
            ([(⟨DiffType.REPLACE, "", some 1, none⟩ : DiffLine)].length + 1) [] []
         (g.1 ++ unmatchedDeletes [⟨DiffType.REPLACE, "", some 1, none⟩] g.2.1 ++
            unmatchedInserts [⟨DiffType.REPLACE, " ", none, some 1⟩] g.2.2,
          0 + (unmatchedDeletes [⟨DiffType.REPLACE, "", some 1, none⟩] g.2.1).length,
          0 + (unmatchedInserts [⟨DiffType.REPLACE, " ", none, some 1⟩] g.2.2).length)) :=
      rfl
    rw [h0]
    rw [hg2]
    decide
  have hblock2 : alignReplaceBlock
      [⟨DiffType.REPLACE, "", some 1, none⟩,
       ⟨DiffType.REPLACE, " ", none, some 1⟩] 1 1
      ⟨DiffType.REPLACE, " ", none, some 1⟩ =
      ([⟨DiffType.REPLACE, " ", none, some 1⟩], 1, 2) := by decide
  have hgo2 : alignLinesGo
      [⟨DiffType.REPLACE, "", some 1, none⟩,
       ⟨DiffType.REPLACE, " ", none, some 1⟩]
      [⟨DiffType.REPLACE, " ", none, some 1⟩] 1 1 =
      ([⟨DiffType.REPLACE, " ", none, some 1⟩], 1, 2) := by
    have e2 : alignLinesGo
        [⟨DiffType.REPLACE, "", some 1, none⟩,
         ⟨DiffType.REPLACE, " ", none, some 1⟩]
        [⟨DiffType.REPLACE, " ", none, some 1⟩] 1 1 =
        ((alignReplaceBlock
            [⟨DiffType.REPLACE, "", some 1, none⟩,
             ⟨DiffType.REPLACE, " ", none, some 1⟩] 1 1
            ⟨DiffType.REPLACE, " ", none, some 1⟩).1 ++ [], 1, 2) := by
      rw [alignLinesGo]
      rw [hblock2]
      rfl
    rw [e2, hblock2]
    rfl
  have hgo1 : alignLinesGo
      [⟨DiffType.REPLACE, "", some 1, none⟩,
       ⟨DiffType.REPLACE, " ", none, some 1⟩]
      [⟨DiffType.REPLACE, "", some 1, none⟩,
       ⟨DiffType.REPLACE, " ", none, some 1⟩] 0 0 =
      ([⟨DiffType.DELETE, "", some 1, none⟩,
        ⟨DiffType.INSERT, " ", none, some 1⟩,
        ⟨DiffType.REPLACE, " ", none, some 1⟩], 1, 2) := by
    rw [alignLinesGo]
    simp only [hblock1, hgo2]
    rfl
  have hfinal : LineAligner.align_lines [""] [" "]
      (DiffResult.from_files [""] [" "] none) =
      ⟨[⟨DiffType.DELETE, "", some 1, none⟩,
        ⟨DiffType.INSERT, " ", none, some 1⟩,
        ⟨DiffType.REPLACE, " ", none, some 1⟩], 1, 1, 1⟩ := by
    rw [hd]
    show (⟨(alignLinesGo
        [⟨DiffType.REPLACE, "", some 1, none⟩,
         ⟨DiffType.REPLACE, " ", none, some 1⟩]
        [⟨DiffType.REPLACE, "", some 1, none⟩,
         ⟨DiffType.REPLACE, " ", none, some 1⟩] 0 0).1, 1, 1, 1⟩ : DiffResult) = _
    rw [hgo1]
  rw [hfinal]
  decide

/-- C3 amended: on the line diff's output the left/right count invariant
holds (`left_line_count`/`right_line_count` equal the number of
`DiffLine`s carrying the respective line number), but `change_count`
counts each `insert`/`delete` line and each whole `replace` opcode once —
not each non-Equal line; and the aligner merely copies all three counters
of its input result unchanged (its rebuilt line list need not satisfy the
invariants). -/
theorem diff_result_count_invariants :
    (∀ (L R : List String) (p : Option (String → String)),
      (DiffResult.from_files L R p).left_line_count =
        countLeftSet (DiffResult.from_files L R p).lines ∧
      (DiffResult.from_files L R p).right_line_count =
        countRightSet (DiffResult.from_files L R p).lines ∧
      (DiffResult.from_files L R p).change_count =
        countOfType DiffType.INSERT (DiffResult.from_files L R p).lines +
        countOfType DiffType.DELETE (DiffResult.from_files L R p).lines +
        (getOpcodes (applyIgnore p L) (applyIgnore p R)).countP
          (fun op => op.tag = OpTag.replace)) ∧
    (∀ (left_lines right_lines : List String) (d : DiffResult),
      (LineAligner.align_lines left_lines right_lines d).left_line_count =
        d.left_line_count ∧
      (LineAligner.align_lines left_lines right_lines d).right_line_count =
        d.right_line_count ∧
      (LineAligner.align_lines left_lines right_lines d).change_count =
        d.change_count) := by
  constructor
  · intro L R p
    obtain ⟨w1, w2, w3⟩ := walkOpcodes_counts (applyIgnore p L)
      (applyIgnore p R) (getOpcodes (applyIgnore p L) (applyIgnore p R)) 0 0 0
    refine ⟨?_, ?_, ?_⟩ <;> simp only [DiffResult.from_files] <;> omega
  · intro left_lines right_lines d
    exact ⟨rfl, rfl, rfl⟩


/-! ## Claim C5 -/

/-- The per-key run length written by `innerFold`'s dictionary update:
`k = j2len.get(j-1, 0) + 1`. -/
def kval (prev : Nat → Nat) (j : Nat) : Nat :=
  (if j = 0 then 0 else prev (j - 1)) + 1

theorem innerFold_write (i : Nat) (prev : Nat → Nat) :
    ∀ (js : List Nat) (nj : Nat → Nat) (best : Nat × Nat × Nat) (x : Nat),
    (innerFold i prev js nj best).1 x =
      if x ∈ js then kval prev x else nj x := by
  intro js
  induction js with
  | nil => intro nj best x; simp [innerFold]
  | cons j js ih =>
    intro nj best x
    simp only [innerFold]
    rw [ih]
    by_cases hx : x ∈ js
    · rw [if_pos hx, if_pos (List.mem_cons_of_mem j hx)]
    · rw [if_neg hx]
      by_cases hxj : x = j
      · subst hxj
        rw [if_pos rfl, if_pos (List.mem_cons_self x js)]
        rfl
      · rw [if_neg hxj, if_neg (by simp [hxj, hx])]

theorem innerFold_no_update (i : Nat) (prev : Nat → Nat) :
    ∀ (js : List Nat) (nj : Nat → Nat) (best : Nat × Nat × Nat),
    (∀ j ∈ js, kval prev j ≤ best.2.2) →
    (innerFold i prev js nj best).2 = best := by
  intro js
  induction js with
  | nil => intro nj best _; rfl
  | cons j js ih =>
    intro nj best h
    have hj := h j (List.mem_cons_self j js)
    have hstep : innerFold i prev (j :: js) nj best =
        innerFold i prev js
          (fun j' => if j' = j then kval prev j else nj j')
          (if best.2.2 < kval prev j then
            (i + 1 - kval prev j, j + 1 - kval prev j, kval prev j)
           else best) := rfl
    rw [hstep, if_neg (by omega)]
    exact ih _ _ (fun x hx => h x (List.mem_cons_of_mem j hx))

theorem innerFold_append (i : Nat) (prev : Nat → Nat) :
    ∀ (l₁ l₂ : List Nat) (nj : Nat → Nat) (best : Nat × Nat × Nat),
    innerFold i prev (l₁ ++ l₂) nj best =
      innerFold i prev l₂ (innerFold i prev l₁ nj best).1
        (innerFold i prev l₁ nj best).2 := by
  intro l₁
  induction l₁ with
  | nil => intro l₂ nj best; rfl
  | cons j l₁ ih =>
    intro l₂ nj best
    simp only [List.cons_append, innerFold]
    exact ih _ _ _

theorem sorted_mem_split {i : Nat} :
    ∀ {js : List Nat}, js.Pairwise (· < ·) → i ∈ js →
    ∃ l₁ l₂, js = l₁ ++ i :: l₂ ∧ (∀ j ∈ l₁, j < i) ∧ (∀ j ∈ l₂, i < j) := by
  intro js
  induction js with
  | nil => intro _ h; exact absurd h (List.not_mem_nil i)
  | cons j js ih =>
    intro hp hm
    rcases List.mem_cons.mp hm with heq | hm'
    · subst heq
      exact ⟨[], js, rfl, by simp, fun x hx => (List.pairwise_cons.mp hp).1 x hx⟩
    · obtain ⟨l₁, l₂, heq, h₁, h₂⟩ := ih (List.pairwise_cons.mp hp).2 hm'
      have hji : j < i := (List.pairwise_cons.mp hp).1 i hm'
      refine ⟨j :: l₁, l₂, by rw [List.cons_append, heq], ?_, h₂⟩
      intro x hx
      rcases List.mem_cons.mp hx with rfl | hx'
      · exact hji
      · exact h₁ x hx'

theorem innerFold_diag_row {i : Nat} {prev : Nat → Nat}
    (hp1 : ∀ x, prev x ≤ i) (hp2 : ∀ x, prev x ≤ x + 1)
    (hp3 : i ≠ 0 → prev (i - 1) = i)
    {js : List Nat} (hs : js.Pairwise (· < ·)) (hmem : i ∈ js)
    (nj : Nat → Nat) :
    (innerFold i prev js nj (0, 0, i)).2 = (0, 0, i + 1) := by
  obtain ⟨l₁, l₂, rfl, h₁, h₂⟩ := sorted_mem_split hs hmem
  rw [innerFold_append]
  have hA : (innerFold i prev l₁ nj (0, 0, i)).2 = (0, 0, i) := by
    refine innerFold_no_update i prev l₁ nj (0, 0, i) ?_
    intro j hj
    have hji := h₁ j hj
    show kval prev j ≤ i
    unfold kval
    split
    · omega
    · have := hp2 (j - 1); omega
  rw [hA]
  have hk : kval prev i = i + 1 := by
    unfold kval
    split
    · omega
    · rw [hp3 (by assumption)]
  have hstep : innerFold i prev (i :: l₂)
      (innerFold i prev l₁ nj (0, 0, i)).1 (0, 0, i) =
      innerFold i prev l₂
        (fun j' => if j' = i then kval prev i
          else (innerFold i prev l₁ nj (0, 0, i)).1 j')
        (if ((0 : Nat), (0 : Nat), i).2.2 < kval prev i then
          (i + 1 - kval prev i, i + 1 - kval prev i, kval prev i)
         else (0, 0, i)) := rfl
  rw [hstep]
  rw [if_pos (show ((0 : Nat), (0 : Nat), i).2.2 < kval prev i from by
    rw [hk]; exact Nat.lt_succ_self i)]
  rw [hk, show i + 1 - (i + 1) = 0 from Nat.sub_self _]
  refine innerFold_no_update i prev l₂ _ (0, 0, i + 1) ?_
  intro j hj
  show kval prev j ≤ i + 1
  unfold kval
  split
  · omega
  · have := hp1 (j - 1); omega

theorem mainLoop_diag {a : List α} (hlen : a.length < 200) :
    ∀ (cnt i0 : Nat) (prev : Nat → Nat), i0 + cnt = a.length →
    (∀ x, prev x ≤ i0) → (∀ x, prev x ≤ x + 1) →
    (i0 ≠ 0 → prev (i0 - 1) = i0) →
    mainLoop a a 0 a.length (List.range' i0 cnt) prev (0, 0, i0) =
      (0, 0, a.length) := by
  intro cnt
  induction cnt with
  | zero =>
    intro i0 prev hsum _ _ _
    have h : i0 = a.length := by omega
    rw [show List.range' i0 0 = ([] : List Nat) from rfl]
    simp only [mainLoop]
    rw [h]
  | succ cnt ih =>
    intro i0 prev hsum hp1 hp2 hp3
    have hi0 : i0 < a.length := by omega
    rw [List.range'_succ]
    simp only [mainLoop]
    have hb2j : b2jGet a (a.getD i0 default) =
        (List.range a.length).filter
          (fun j => a.get? j = some (a.getD i0 default)) := by
      simp only [b2jGet]
      rw [if_neg (by rintro ⟨h200, -⟩; omega)]
    have hget : a.get? i0 = some (a.getD i0 default) := by
      rw [List.getD_eq_getElem?_getD, List.get?_eq_getElem?,
        List.getElem?_eq_getElem hi0]
      rfl
    have hpair : ((b2jGet a (a.getD i0 default)).filter
        (fun j => 0 ≤ j ∧ j < a.length)).Pairwise (· < ·) := by
      rw [hb2j]
      exact ((List.pairwise_lt_range a.length).filter _).filter _
    have hmem : i0 ∈ (b2jGet a (a.getD i0 default)).filter
        (fun j => 0 ≤ j ∧ j < a.length) := by
      rw [hb2j]
      simp only [List.mem_filter, List.mem_range, decide_eq_true_eq]
      exact ⟨⟨hi0, hget⟩, by omega⟩
    have hrow := innerFold_diag_row hp1 hp2 hp3 hpair hmem (fun _ => 0)
    rw [hrow]
    have hw := innerFold_write i0 prev
      ((b2jGet a (a.getD i0 default)).filter (fun j => 0 ≤ j ∧ j < a.length))
      (fun _ => 0) (0, 0, i0)
    refine ih (i0 + 1) _ (by omega) ?_ ?_ ?_
    · intro y
      rw [hw y]
      split
      · show kval prev y ≤ i0 + 1
        unfold kval
        split
        · omega
        · have := hp1 (y - 1); omega
      · omega
    · intro y
      rw [hw y]
      split
      · show kval prev y ≤ y + 1
        unfold kval
        split
        · omega
        · have := hp2 (y - 1); omega
      · omega
    · intro _
      rw [show i0 + 1 - 1 = i0 from rfl, hw i0, if_pos hmem]
      show kval prev i0 = i0 + 1
      unfold kval
      split
      · omega
      · rw [hp3 (by assumption)]

theorem findLongestMatch_self (a : List α) (hlen : a.length < 200) :
    findLongestMatch a a 0 a.length 0 a.length = (0, 0, a.length) := by
  unfold findLongestMatch
  have hmain := mainLoop_diag hlen a.length 0 (fun _ => 0) (by omega)
    (fun _ => Nat.le_refl 0) (fun _ => Nat.zero_le _)
    (fun hh => absurd rfl hh)
  rw [Nat.sub_zero, hmain]
  have hback : extBack a a 0 0 0 0 a.length = (0, 0, a.length) := rfl
  have hfwd : extFwd a a a.length a.length 0 0 a.length = a.length := by
    unfold extFwd
    rw [show a.length - (0 + a.length) = 0 by omega]
    rfl
  simp only [flmPost, hback, hfwd]

theorem getOpcodes_self (a : List α) (hlen : a.length < 200) :
    getOpcodes a a =
      if a.length = 0 then []
      else [⟨OpTag.equal, 0, a.length, 0, a.length⟩] := by
  by_cases h0 : a.length = 0
  · rw [if_pos h0]
    have hA : a = [] := List.length_eq_zero.mp h0
    subst hA
    rfl
  · rw [if_neg h0]
    have hflm := findLongestMatch_self a hlen
    unfold getOpcodes getMatchingBlocks
    rw [matchingBlocksRec, hflm]
    simp only []
    rw [if_neg (show ¬((0 : Nat), (0 : Nat), a.length).2.2 = 0 from h0)]
    rw [if_neg (show ¬((0 : Nat) < ((0 : Nat), (0 : Nat), a.length).1 ∧
      (0 : Nat) < ((0 : Nat), (0 : Nat), a.length).2.1) by
        rintro ⟨hc, -⟩; omega)]
    rw [if_neg (show ¬(((0 : Nat), (0 : Nat), a.length).1 +
        ((0 : Nat), (0 : Nat), a.length).2.2 < a.length ∧
        ((0 : Nat), (0 : Nat), a.length).2.1 +
        ((0 : Nat), (0 : Nat), a.length).2.2 < a.length) by
      rintro ⟨hc, -⟩
      simp only [] at hc
      omega)]
    simp only [List.nil_append]
    rw [mergeAdj]
    rw [if_pos (show ((0 : Nat), (0 : Nat), (0 : Nat)).1 +
        ((0 : Nat), (0 : Nat), (0 : Nat)).2.2 =
          ((0 : Nat), (0 : Nat), a.length).1 ∧
        ((0 : Nat), (0 : Nat), (0 : Nat)).2.1 +
        ((0 : Nat), (0 : Nat), (0 : Nat)).2.2 =
          ((0 : Nat), (0 : Nat), a.length).2.1 from ⟨rfl, rfl⟩)]
    rw [mergeAdj]
    rw [if_pos (show ((0 : Nat), (0 : Nat),
        ((0 : Nat), (0 : Nat), (0 : Nat)).2.2 +
          ((0 : Nat), (0 : Nat), a.length).2.2).2.2 ≠ 0 from by
      show (0 : Nat) + a.length ≠ 0
      omega)]
    simp only [Nat.zero_add, List.cons_append, List.nil_append]
    simp only [opcodesFromBlocks]
    rw [if_neg (show ¬((0 : Nat) < 0 ∧ (0 : Nat) < 0) by omega)]
    rw [if_neg (show ¬((0 : Nat) < 0) by omega)]
    rw [if_neg (show ¬((0 : Nat) < 0) by omega)]
    rw [if_pos (show a.length ≠ 0 from h0)]
    rw [if_neg (show ¬(0 + a.length < a.length ∧ 0 + a.length < a.length) by
      omega)]
    rw [if_neg (show ¬(0 + a.length < a.length) by omega)]
    rw [if_neg (show ¬(0 + a.length < a.length) by omega)]
    rw [if_neg (show ¬((0 : Nat) ≠ 0) by omega)]
    simp only [List.cons_append, List.nil_append, List.append_nil,
      Nat.zero_add]

theorem sliceList_self (l : List String) : sliceList l 0 l.length = l := by
  unfold sliceList
  rw [List.drop_zero, Nat.sub_zero, List.take_length]

theorem equalWalk_spec : ∀ (ls : List String) (lc rc : Nat),
    (equalWalk ls lc rc).1.length = ls.length ∧
    ∀ k, k < ls.length →
      (equalWalk ls lc rc).1.getD k default =
        ⟨DiffType.EQUAL, ls.getD k "",
          if ls.getD k "" ≠ "" then
            some (lc + (ls.take (k + 1)).countP (fun s => s ≠ "")) else none,
          if ls.getD k "" ≠ "" then
            some (rc + (ls.take (k + 1)).countP (fun s => s ≠ "")) else none⟩ := by
  intro ls
  induction ls with
  | nil =>
    intro lc rc
    refine ⟨rfl, ?_⟩
    intro k hk
    simp only [List.length_nil] at hk
    exact absurd hk (by omega)
  | cons l ls ih =>
    intro lc rc
    constructor
    · simp only [equalWalk, List.length_cons, (ih _ _).1]
    · intro k hk
      cases k with
      | zero =>
        simp only [equalWalk, List.getD_cons_zero, List.take_succ_cons,
          List.take_zero, List.countP_cons, List.countP_nil]
        by_cases hl : l = "" <;> simp [hl]
      | succ k =>
        have hk' : k < ls.length := by
          simp only [List.length_cons] at hk
          omega
        simp only [equalWalk, List.getD_cons_succ, List.take_succ_cons,
          List.countP_cons]
        rw [(ih (if l ≠ "" then lc + 1 else lc)
          (if l ≠ "" then rc + 1 else rc)).2 k hk']
        by_cases hl : l = "" <;> by_cases hx : ls.getD k "" = "" <;>
          simp [hl, hx, DiffLine.mk.injEq] <;>
          (refine ⟨?_, ?_⟩ <;> split <;> simp <;> omega)

/-- C5 counterexample: diffing `[""]` against itself yields change_count 0
and a single Equal line, but that line carries NO line numbers: the equal
branch computes `left_count + 1 if line else None`, so empty lines are
never numbered (and do not advance the counters), contradicting
sequential numbering from 1 "including for lines of A that are empty
strings". -/
theorem diff_self_empty_line_counterexample :
    (DiffResult.from_files [""] [""] none).lines =
      [⟨DiffType.EQUAL, "", none, none⟩] := by decide

/-- C5 amended: for `A` below difflib's autojunk threshold
(`A.length < 200`), diffing `A` against itself yields `change_count = 0`
and one `DiffLine` per line of `A`, each `EQUAL` with that line's content;
a line that is non-empty carries both line numbers, equal to the count of
non-empty lines up to and including it (sequential numbering from 1 over
the non-empty lines), while an empty line carries no line numbers. -/
theorem diff_self_all_equal (A : List String) (h : A.length < 200) :
    (DiffResult.from_files A A none).change_count = 0 ∧
    (DiffResult.from_files A A none).lines.length = A.length ∧
    ∀ k, k < A.length →
      (DiffResult.from_files A A none).lines.getD k default =
        ⟨DiffType.EQUAL, A.getD k "",
          if A.getD k "" ≠ "" then
            some ((A.take (k + 1)).countP (fun s => s ≠ "")) else none,
          if A.getD k "" ≠ "" then
            some ((A.take (k + 1)).countP (fun s => s ≠ "")) else none⟩ := by
  have hop := getOpcodes_self A h
  by_cases h0 : A.length = 0
  · have hA : A = [] := List.length_eq_zero.mp h0
    subst hA
    exact ⟨rfl, rfl, fun k hk => absurd hk (by omega)⟩
  · rw [if_neg h0] at hop
    have hff : DiffResult.from_files A A none =
        ⟨(equalWalk A 0 0).1 ++ [], (equalWalk A 0 0).2.1,
          (equalWalk A 0 0).2.2, 0⟩ := by
      simp only [DiffResult.from_files, applyIgnore]
      rw [hop]
      simp only [walkOpcodes, processOpcode, sliceList_self]
    obtain ⟨hlen', hspec⟩ := equalWalk_spec A 0 0
    rw [hff]
    refine ⟨rfl, ?_, ?_⟩
    · simp only [List.append_nil]
      exact hlen'
    · intro k hk
      simp only [List.append_nil]
      rw [hspec k hk]
      simp only [Nat.zero_add]

/-- Witness for `diff_self_all_equal` at the concrete input
`A = ["a", ""]`. -/
theorem diff_self_all_equal_witness :
    (DiffResult.from_files ["a", ""] ["a", ""] none).change_count = 0 :=
  (diff_self_all_equal ["a", ""] (by decide)).1


/-! ## Claim C6 -/

/-- The score the greedy matcher reads for the pair `p` (`matrix[li][ri]`,
absent entries ↦ 0). -/
def pickScore (mat : List (List ℚ)) (p : Nat × Nat) : ℚ :=
  (mat.getD p.1 []).getD p.2 0

/-- One accumulator step of `scanBest`'s fold (the body of the nested
`for li … for ri …` scan). -/
def scanStep (mat : List (List ℚ)) (matchedL matchedR : List Nat)
    (best : ℚ × Option (Nat × Nat)) (p : Nat × Nat) : ℚ × Option (Nat × Nat) :=
  if p.1 ∈ matchedL ∨ p.2 ∈ matchedR then best
  else
    let s := (mat.getD p.1 []).getD p.2 0
    if best.1 < s then (s, some p) else best

/-- The row-major pair list scanned by `scanBest`. -/
def pairList (m n : Nat) : List (Nat × Nat) :=
  (List.range m).flatMap (fun li => (List.range n).map (fun ri => (li, ri)))

theorem scanBest_eq_foldl (mat : List (List ℚ)) (m n : Nat)
    (mL mR : List Nat) :
    scanBest mat m n mL mR = (pairList m n).foldl (scanStep mat mL mR) (0, none) :=
  rfl

theorem mem_pairList {m n : Nat} {p : Nat × Nat} :
    p ∈ pairList m n ↔ p.1 < m ∧ p.2 < n := by
  obtain ⟨a, b⟩ := p
  simp [pairList, List.mem_flatMap]

theorem scanFold_spec (mat : List (List ℚ)) (mL mR : List Nat) :
    ∀ (pl : List (Nat × Nat)) (acc : ℚ × Option (Nat × Nat)),
    acc.1 ≤ (pl.foldl (scanStep mat mL mR) acc).1 ∧
    (∀ p ∈ pl, p.1 ∉ mL → p.2 ∉ mR →
      pickScore mat p ≤ (pl.foldl (scanStep mat mL mR) acc).1) ∧
    (pl.foldl (scanStep mat mL mR) acc = acc ∨
      ∃ p ∈ pl, p.1 ∉ mL ∧ p.2 ∉ mR ∧
        pl.foldl (scanStep mat mL mR) acc = (pickScore mat p, some p) ∧
        acc.1 < pickScore mat p) := by
  intro pl
  induction pl with
  | nil =>
    intro acc
    exact ⟨le_rfl, fun p hp => absurd hp (List.not_mem_nil p), Or.inl rfl⟩
  | cons p pl ih =>
    intro acc
    rw [List.foldl_cons]
    obtain ⟨ihm, ihd, ihp⟩ := ih (scanStep mat mL mR acc p)
    have hstep : acc.1 ≤ (scanStep mat mL mR acc p).1 := by
      unfold scanStep
      split
      · exact le_rfl
      · show acc.1 ≤ (if acc.1 < (mat.getD p.1 []).getD p.2 0 then
            ((mat.getD p.1 []).getD p.2 0, some p) else acc).1
        split
        · next h => exact le_of_lt h
        · exact le_rfl
    refine ⟨le_trans hstep ihm, ?_, ?_⟩
    · intro q hq hqL hqR
      rcases List.mem_cons.mp hq with rfl | hq'
      · have hfresh : ¬(q.1 ∈ mL ∨ q.2 ∈ mR) := by
          rintro (h | h)
          · exact hqL h
          · exact hqR h
        have : pickScore mat q ≤ (scanStep mat mL mR acc q).1 := by
          unfold scanStep
          rw [if_neg hfresh]
          show pickScore mat q ≤ (if acc.1 < (mat.getD q.1 []).getD q.2 0 then
              ((mat.getD q.1 []).getD q.2 0, some q) else acc).1
          split
          · exact le_rfl
          · next h => exact le_of_not_lt h
        exact le_trans this ihm
      · exact ihd q hq' hqL hqR
    · by_cases hfresh : p.1 ∈ mL ∨ p.2 ∈ mR
      · have hacc : scanStep mat mL mR acc p = acc := by
          unfold scanStep
          rw [if_pos hfresh]
        rw [hacc] at ihp ⊢
        rcases ihp with h | ⟨q, hq, h1, h2, h3, h4⟩
        · exact Or.inl h
        · exact Or.inr ⟨q, List.mem_cons_of_mem p hq, h1, h2, h3, h4⟩
      · push_neg at hfresh
        by_cases hlt : acc.1 < (mat.getD p.1 []).getD p.2 0
        · have hacc : scanStep mat mL mR acc p =
              ((mat.getD p.1 []).getD p.2 0, some p) := by
            unfold scanStep
            rw [if_neg (by rintro (h | h); exacts [hfresh.1 h, hfresh.2 h])]
            rw [if_pos hlt]
          rw [hacc] at ihp ⊢
          rcases ihp with h | ⟨q, hq, h1, h2, h3, h4⟩
          · exact Or.inr ⟨p, List.mem_cons_self p pl, hfresh.1, hfresh.2,
              h, hlt⟩
          · refine Or.inr ⟨q, List.mem_cons_of_mem p hq, h1, h2, h3, ?_⟩
            exact lt_trans hlt h4
        · have hacc : scanStep mat mL mR acc p = acc := by
            unfold scanStep
            rw [if_neg (by rintro (h | h); exacts [hfresh.1 h, hfresh.2 h])]
            rw [if_neg hlt]
          rw [hacc] at ihp ⊢
          rcases ihp with h | ⟨q, hq, h1, h2, h3, h4⟩
          · exact Or.inl h
          · exact Or.inr ⟨q, List.mem_cons_of_mem p hq, h1, h2, h3, h4⟩

theorem scanBest_spec (mat : List (List ℚ)) (m n : Nat) (mL mR : List Nat) :
    (scanBest mat m n mL mR = (0, none) ∧
      ∀ li ri, li < m → ri < n → li ∉ mL → ri ∉ mR →
        pickScore mat (li, ri) ≤ 0) ∨
    (∃ li ri, scanBest mat m n mL mR = (pickScore mat (li, ri), some (li, ri)) ∧
      li < m ∧ ri < n ∧ li ∉ mL ∧ ri ∉ mR ∧
      0 < pickScore mat (li, ri) ∧
      ∀ li' ri', li' < m → ri' < n → li' ∉ mL → ri' ∉ mR →
        pickScore mat (li', ri') ≤ pickScore mat (li, ri)) := by
  obtain ⟨hm, hd, hp⟩ := scanFold_spec mat mL mR (pairList m n) (0, none)
  rw [scanBest_eq_foldl]
  rcases hp with h | ⟨p, hp, h1, h2, h3, h4⟩
  · left
    refine ⟨h, ?_⟩
    intro li ri hli hri hLi hRi
    have := hd (li, ri) (mem_pairList.mpr ⟨hli, hri⟩) hLi hRi
    rw [h] at this
    exact this
  · right
    obtain ⟨hpm, hpn⟩ := mem_pairList.mp hp
    refine ⟨p.1, p.2, by rw [h3], hpm, hpn, h1, h2, h4, ?_⟩
    intro li ri hli hri hLi hRi
    have := hd (li, ri) (mem_pairList.mpr ⟨hli, hri⟩) hLi hRi
    rw [h3] at this
    exact this

/-- The line(s) the greedy matcher emits for a matched pair `p`: a single
`EQUAL` line (left content, left and right line numbers) when the pair's
score exceeds `0.8`, else the left-then-right `REPLACE` pair. -/
def emitPair (lb rb : List DiffLine) (mat : List (List ℚ))
    (p : Nat × Nat) : List DiffLine :=
  if 0.8 < pickScore mat p then
    [⟨DiffType.EQUAL, (lb.getD p.1 default).content,
      (lb.getD p.1 default).left_line_num,
      (rb.getD p.2 default).right_line_num⟩]
  else
    [⟨DiffType.REPLACE, (lb.getD p.1 default).content,
      (lb.getD p.1 default).left_line_num, none⟩,
     ⟨DiffType.REPLACE, (rb.getD p.2 default).content,
      none, (rb.getD p.2 default).right_line_num⟩]

/-- The spec's description of one greedy matching run starting from
matched-index sets `mL`/`mR`: each step picks an unmatched in-range pair
of maximal score, requires that score to be at least `0.3`, and marks
both indices matched; the run stops exactly when every remaining
unmatched pair scores below `0.3`. -/
inductive GreedySteps (lb rb : List DiffLine) (mat : List (List ℚ)) :
    List Nat → List Nat → List (Nat × Nat) → Prop
  | stop (mL mR : List Nat)
      (hstop : ∀ li ri, li < lb.length → ri < rb.length →
        li ∉ mL → ri ∉ mR → pickScore mat (li, ri) < 0.3) :
      GreedySteps lb rb mat mL mR []
  | pick (mL mR : List Nat) (p : Nat × Nat) (ps : List (Nat × Nat))
      (hbL : p.1 < lb.length) (hbR : p.2 < rb.length)
      (hfL : p.1 ∉ mL) (hfR : p.2 ∉ mR)
      (hge : 0.3 ≤ pickScore mat p)
      (hmax : ∀ li ri, li < lb.length → ri < rb.length →
        li ∉ mL → ri ∉ mR → pickScore mat (li, ri) ≤ pickScore mat p)
      (rest : GreedySteps lb rb mat (p.1 :: mL) (p.2 :: mR) ps) :
      GreedySteps lb rb mat mL mR (p :: ps)

theorem filter_notmem_cons_length_lt {l mL : List Nat} {x : Nat}
    (hx : x ∈ l.filter (fun li => li ∉ mL)) :
    (l.filter (fun li => li ∉ (x :: mL))).length <
      (l.filter (fun li => li ∉ mL)).length := by
  have hcombine : l.filter (fun li => li ∉ (x :: mL)) =
      (l.filter (fun li => li ∉ mL)).filter (fun li => li ≠ x) := by
    rw [List.filter_filter]
    refine List.filter_congr ?_
    intro a _
    simp [List.mem_cons, not_or, and_comm]
  rw [hcombine]
  refine List.length_filter_lt_length_iff_exists.mpr ?_
  exact ⟨x, hx, by simp⟩

theorem greedyLoop_spec (lb rb : List DiffLine) (mat : List (List ℚ)) :
    ∀ (fuel : Nat) (mL mR : List Nat),
    ((List.range lb.length).filter (fun li => li ∉ mL)).length < fuel →
    ∃ ps : List (Nat × Nat),
      GreedySteps lb rb mat mL mR ps ∧
      (greedyLoop lb rb mat fuel mL mR).1 =
        (ps.map (emitPair lb rb mat)).flatten ∧
      (greedyLoop lb rb mat fuel mL mR).2.1 =
        (ps.map Prod.fst).reverse ++ mL ∧
      (greedyLoop lb rb mat fuel mL mR).2.2 =
        (ps.map Prod.snd).reverse ++ mR := by
  intro fuel
  induction fuel with
  | zero =>
    intro mL mR hfuel
    exact absurd hfuel (by omega)
  | succ fuel ih =>
    intro mL mR hfuel
    rw [greedyLoop]
    rcases scanBest_spec mat lb.length rb.length mL mR with
      ⟨hsb, hdom⟩ | ⟨li, ri, hsb, hli, hri, hfL, hfR, hpos, hmax⟩
    · simp only [hsb]
      rw [if_pos (show (0 : ℚ) < 0.3 by norm_num)]
      refine ⟨[], GreedySteps.stop mL mR ?_, rfl, rfl, rfl⟩
      intro li ri h1 h2 h3 h4
      have := hdom li ri h1 h2 h3 h4
      have h03 : (0 : ℚ) < 0.3 := by norm_num
      exact lt_of_le_of_lt this h03
    · simp only [hsb]
      by_cases hlt : pickScore mat (li, ri) < 0.3
      · rw [if_pos hlt]
        refine ⟨[], GreedySteps.stop mL mR ?_, rfl, rfl, rfl⟩
        intro li' ri' h1 h2 h3 h4
        exact lt_of_le_of_lt (hmax li' ri' h1 h2 h3 h4) hlt
      · rw [if_neg hlt]
        have hmemf : li ∈ (List.range lb.length).filter
            (fun li' => li' ∉ mL) := by
          rw [List.mem_filter]
          exact ⟨List.mem_range.mpr hli, by simpa using hfL⟩
        have hfuel' : ((List.range lb.length).filter
            (fun li' => li' ∉ (li :: mL))).length < fuel := by
          have := filter_notmem_cons_length_lt hmemf
          omega
        obtain ⟨ps, hst, he, hl, hr⟩ := ih (li :: mL) (ri :: mR) hfuel'
        refine ⟨(li, ri) :: ps,
          GreedySteps.pick mL mR (li, ri) ps hli hri hfL hfR
            (le_of_not_lt hlt) hmax hst, ?_, ?_, ?_⟩
        · simp only [List.map_cons, List.flatten_cons, he]
          congr 1
        · simp only [hl, List.map_cons, List.reverse_cons,
            List.append_assoc, List.cons_append, List.nil_append]
        · simp only [hr, List.map_cons, List.reverse_cons,
            List.append_assoc, List.cons_append, List.nil_append]

theorem greedySteps_length_le (lb rb : List DiffLine) (mat : List (List ℚ))
    {mL mR : List Nat} {ps : List (Nat × Nat)}
    (h : GreedySteps lb rb mat mL mR ps) :
    ps.length ≤ ((List.range lb.length).filter (fun li => li ∉ mL)).length ∧
    ps.length ≤ ((List.range rb.length).filter (fun ri => ri ∉ mR)).length := by
  induction h with
  | stop mL mR hstop => simp
  | pick mL mR p ps hbL hbR hfL hfR hge hmax rest ih =>
    have hmemL : p.1 ∈ (List.range lb.length).filter
        (fun li => li ∉ mL) := by
      rw [List.mem_filter]
      exact ⟨List.mem_range.mpr hbL, by simpa using hfL⟩
    have hmemR : p.2 ∈ (List.range rb.length).filter
        (fun ri => ri ∉ mR) := by
      rw [List.mem_filter]
      exact ⟨List.mem_range.mpr hbR, by simpa using hfR⟩
    have h1 := filter_notmem_cons_length_lt hmemL
    have h2 := filter_notmem_cons_length_lt hmemR
    simp only [List.length_cons]
    exact ⟨by omega, by omega⟩

theorem emit_flatten_equal_count (lb rb : List DiffLine)
    (mat : List (List ℚ)) :
    ∀ ps : List (Nat × Nat),
    ((ps.map (emitPair lb rb mat)).flatten.filter
      (fun dl => dl.type = DiffType.EQUAL)).length ≤ ps.length := by
  intro ps
  induction ps with
  | nil => simp
  | cons p ps ih =>
    simp only [List.map_cons, List.flatten_cons, List.filter_append,
      List.length_append, List.length_cons]
    have hone : ((emitPair lb rb mat p).filter
        (fun dl => dl.type = DiffType.EQUAL)).length ≤ 1 := by
      unfold emitPair
      split
      · simp
      · simp
    omega

theorem unmatchedDeletes_congr (lb : List DiffLine) {m1 m2 : List Nat}
    (h : ∀ x, x ∈ m1 ↔ x ∈ m2) :
    unmatchedDeletes lb m1 = unmatchedDeletes lb m2 := by
  unfold unmatchedDeletes
  congr 1
  refine List.filter_congr ?_
  intro a _
  simp [h a]

theorem unmatchedInserts_congr (rb : List DiffLine) {m1 m2 : List Nat}
    (h : ∀ x, x ∈ m1 ↔ x ∈ m2) :
    unmatchedInserts rb m1 = unmatchedInserts rb m2 := by
  unfold unmatchedInserts
  congr 1
  refine List.filter_congr ?_
  intro a _
  simp [h a]

/-- C6: for a replace run whose left sub-block `L` and right sub-block
`R` are both non-empty, `_align_replace_block` performs the greedy
matching the spec describes: there is a sequence of picks, each an
unmatched in-range pair of maximal remaining score with score at least
`0.3`, consuming both indices, stopping exactly when every remaining
score is below `0.3`; each pick emits one `EQUAL` line when its score
exceeds `0.8` and a left-then-right `REPLACE` pair otherwise; unmatched
left lines become `DELETE` and unmatched right lines `INSERT` lines (in
block order, after all pick output); and the number of `EQUAL`
reclassifications never exceeds `min |L| |R|`. -/
theorem align_replace_block_greedy
    (diff_lines : List DiffLine) (left_idx right_idx : Nat)
    (start_line : DiffLine) (L R : List DiffLine)
    (hL : L = ((diff_lines.drop (diff_lines.findIdx
        (fun dl => dl = start_line))).takeWhile
        (fun dl => dl.type = DiffType.REPLACE)).filter
        (fun dl => dl.left_line_num ≠ none))
    (hR : R = ((diff_lines.drop (diff_lines.findIdx
        (fun dl => dl = start_line))).takeWhile
        (fun dl => dl.type = DiffType.REPLACE)).filter
        (fun dl => dl.right_line_num ≠ none))
    (hLne : L ≠ []) (hRne : R ≠ []) :
    ∃ ps : List (Nat × Nat),
      GreedySteps L R (similarityMatrix L R) [] [] ps ∧
      (alignReplaceBlock diff_lines left_idx right_idx start_line).1 =
        (ps.map (emitPair L R (similarityMatrix L R))).flatten ++
          unmatchedDeletes L (ps.map Prod.fst) ++
          unmatchedInserts R (ps.map Prod.snd) ∧
      (alignReplaceBlock diff_lines left_idx right_idx start_line).2.1 =
        left_idx + (unmatchedDeletes L (ps.map Prod.fst)).length ∧
      (alignReplaceBlock diff_lines left_idx right_idx start_line).2.2 =
        right_idx + (unmatchedInserts R (ps.map Prod.snd)).length ∧
      ((ps.map (emitPair L R (similarityMatrix L R))).flatten.filter
        (fun dl => dl.type = DiffType.EQUAL)).length ≤
          min L.length R.length := by
  have hstep : alignReplaceBlock diff_lines left_idx right_idx start_line =
      (if L = [] ∨ R = [] then
        ([start_line],
          left_idx + (if start_line.left_line_num ≠ none then 1 else 0),
          right_idx + (if start_line.right_line_num ≠ none then 1 else 0))
      else
        ((greedyLoop L R (similarityMatrix L R) (L.length + 1) [] []).1 ++
          unmatchedDeletes L
            (greedyLoop L R (similarityMatrix L R) (L.length + 1) [] []).2.1 ++
          unmatchedInserts R
            (greedyLoop L R (similarityMatrix L R) (L.length + 1) [] []).2.2,
         left_idx + (unmatchedDeletes L
            (greedyLoop L R (similarityMatrix L R)
              (L.length + 1) [] []).2.1).length,
         right_idx + (unmatchedInserts R
            (greedyLoop L R (similarityMatrix L R)
              (L.length + 1) [] []).2.2).length)) := by
    subst hL
    subst hR
    rfl
  rw [hstep, if_neg (by rintro (h | h); exacts [hLne h, hRne h])]
  obtain ⟨ps, hst, he, hl, hr⟩ := greedyLoop_spec L R (similarityMatrix L R)
    (L.length + 1) [] [] (by simp)
  have hdel : unmatchedDeletes L ((ps.map Prod.fst).reverse ++ []) =
      unmatchedDeletes L (ps.map Prod.fst) :=
    unmatchedDeletes_congr L (fun x => by simp)
  have hins : unmatchedInserts R ((ps.map Prod.snd).reverse ++ []) =
      unmatchedInserts R (ps.map Prod.snd) :=
    unmatchedInserts_congr R (fun x => by simp)
  refine ⟨ps, hst, ?_, ?_, ?_, ?_⟩
  · rw [he, hl, hr, hdel, hins]
  · rw [hl, hdel]
  · rw [hr, hins]
  · have h1 := emit_flatten_equal_count L R (similarityMatrix L R) ps
    obtain ⟨h2, h3⟩ := greedySteps_length_le L R (similarityMatrix L R) hst
    have hfl : ((List.range L.length).filter
        (fun li => li ∉ ([] : List Nat))).length = L.length := by simp
    have hfr : ((List.range R.length).filter
        (fun ri => ri ∉ ([] : List Nat))).length = R.length := by simp
    omega

/-- Witness for `align_replace_block_greedy` at a concrete one-line
replace run on each side. -/
theorem align_replace_block_greedy_witness :
    ∃ ps : List (Nat × Nat),
      GreedySteps ([⟨DiffType.REPLACE, "a", some 1, none⟩] : List DiffLine)
        ([⟨DiffType.REPLACE, "b", none, some 1⟩] : List DiffLine)
        (similarityMatrix [⟨DiffType.REPLACE, "a", some 1, none⟩]
          [⟨DiffType.REPLACE, "b", none, some 1⟩]) [] [] ps ∧
      (alignReplaceBlock
        [⟨DiffType.REPLACE, "a", some 1, none⟩,
         ⟨DiffType.REPLACE, "b", none, some 1⟩] 0 0
        ⟨DiffType.REPLACE, "a", some 1, none⟩).1 =
        (ps.map (emitPair [⟨DiffType.REPLACE, "a", some 1, none⟩]
          [⟨DiffType.REPLACE, "b", none, some 1⟩]
          (similarityMatrix [⟨DiffType.REPLACE, "a", some 1, none⟩]
            [⟨DiffType.REPLACE, "b", none, some 1⟩]))).flatten ++
          unmatchedDeletes [⟨DiffType.REPLACE, "a", some 1, none⟩]
            (ps.map Prod.fst) ++
          unmatchedInserts [⟨DiffType.REPLACE, "b", none, some 1⟩]
            (ps.map Prod.snd) ∧
      (alignReplaceBlock
        [⟨DiffType.REPLACE, "a", some 1, none⟩,
         ⟨DiffType.REPLACE, "b", none, some 1⟩] 0 0
        ⟨DiffType.REPLACE, "a", some 1, none⟩).2.1 =
        0 + (unmatchedDeletes [⟨DiffType.REPLACE, "a", some 1, none⟩]
          (ps.map Prod.fst)).length ∧
      (alignReplaceBlock
        [⟨DiffType.REPLACE, "a", some 1, none⟩,
         ⟨DiffType.REPLACE, "b", none, some 1⟩] 0 0
        ⟨DiffType.REPLACE, "a", some 1, none⟩).2.2 =
        0 + (unmatchedInserts [⟨DiffType.REPLACE, "b", none, some 1⟩]
          (ps.map Prod.snd)).length ∧
      ((ps.map (emitPair [⟨DiffType.REPLACE, "a", some 1, none⟩]
          [⟨DiffType.REPLACE, "b", none, some 1⟩]
          (similarityMatrix [⟨DiffType.REPLACE, "a", some 1, none⟩]
            [⟨DiffType.REPLACE, "b", none, some 1⟩]))).flatten.filter
        (fun dl => dl.type = DiffType.EQUAL)).length ≤
          min ([⟨DiffType.REPLACE, "a", some 1, none⟩] : List DiffLine).length
            ([⟨DiffType.REPLACE, "b", none, some 1⟩] : List DiffLine).length :=
  align_replace_block_greedy
    [⟨DiffType.REPLACE, "a", some 1, none⟩,
     ⟨DiffType.REPLACE, "b", none, some 1⟩] 0 0
    ⟨DiffType.REPLACE, "a", some 1, none⟩
    [⟨DiffType.REPLACE, "a", some 1, none⟩]
    [⟨DiffType.REPLACE, "b", none, some 1⟩]
    (by decide) (by decide) (by decide) (by decide)


/-! ## Claim C7 -/

/-- A line that is neither a conflict marker nor multi-line: safe content
for the three-way merge detector. -/
def lineClean (s : String) : Bool :=
  !(startswith s "<<<<<<<") && !(startswith s "=======") &&
    !(startswith s ">>>>>>>") && !(s.data.contains '\n')

/-- Structured view of well-formed merged content: a plain line, or a
whole conflict block (start-marker line, left lines, separator line,
right lines, end-marker line). -/
inductive MergeItem : Type
  | line (s : String)
  | block (st : String) (ls : List String) (sep : String)
      (rs : List String) (en : String)
deriving DecidableEq, Repr

/-- The well-formedness of one item: markers carry the right prefixes,
and every line is newline-free with content lines marker-free. -/
def itemOK : MergeItem → Bool
  | MergeItem.line s => lineClean s
  | MergeItem.block st ls sep rs en =>
    startswith st "<<<<<<<" && !(st.data.contains '\n') &&
    (startswith sep "=======" && !(sep.data.contains '\n')) &&
    (startswith en ">>>>>>>" && !(en.data.contains '\n')) &&
    ls.all lineClean && rs.all lineClean

/-- The raw lines of one item. -/
def itemLines : MergeItem → List String
  | MergeItem.line s => [s]
  | MergeItem.block st ls sep rs en => st :: (ls ++ sep :: (rs ++ [en]))

/-- The raw line list of a sequence of items. -/
def parseLines (items : List MergeItem) : List String :=
  items.flatMap itemLines

/-- The conflict markers a correct scan of the given items yields,
starting at line offset `i`: one marker per block, spanning the whole
block, with (because of the collection bug) ALL content lines joined into
`left_content` and an empty `right_content`. -/
def blocksOf : List MergeItem → Nat → List ConflictMarker
  | [], _ => []
  | MergeItem.line _ :: rest, i => blocksOf rest (i + 1)
  | MergeItem.block _ ls _ rs _ :: rest, i =>
    ⟨i, i + ls.length + rs.length + 2, joinNl (ls ++ rs), "", none⟩ ::
      blocksOf rest (i + ls.length + rs.length + 3)

/-- Number of conflict blocks among the items. -/
def countBlocks (items : List MergeItem) : Nat :=
  items.countP (fun it => match it with
    | MergeItem.line _ => false
    | MergeItem.block _ _ _ _ _ => true)

theorem sep_not_lt {s : String} (h : startswith s "=======" = true) :
    startswith s "<<<<<<<" = false := by
  unfold startswith at h ⊢
  rw [List.isPrefixOf_iff_prefix] at h
  rw [← Bool.not_eq_true, List.isPrefixOf_iff_prefix]
  obtain ⟨t, ht⟩ := h
  rintro ⟨u, hu⟩
  have hdp : ("=======" : String).data ++ t = ("<<<<<<<" : String).data ++ u := by
    rw [ht, hu]
  have h2 := congrArg List.head? hdp
  rw [show ("=======" : String).data = '=' :: "======".data from rfl,
    show ("<<<<<<<" : String).data = '<' :: "<<<<<<".data from rfl] at h2
  simp only [List.cons_append, List.head?_cons, Option.some.injEq] at h2
  exact absurd h2 (by decide)

theorem end_not_lt {s : String} (h : startswith s ">>>>>>>" = true) :
    startswith s "<<<<<<<" = false := by
  unfold startswith at h ⊢
  rw [List.isPrefixOf_iff_prefix] at h
  rw [← Bool.not_eq_true, List.isPrefixOf_iff_prefix]
  obtain ⟨t, ht⟩ := h
  rintro ⟨u, hu⟩
  have hdp : (">>>>>>>" : String).data ++ t = ("<<<<<<<" : String).data ++ u := by
    rw [ht, hu]
  have h2 := congrArg List.head? hdp
  rw [show (">>>>>>>" : String).data = '>' :: ">>>>>>".data from rfl,
    show ("<<<<<<<" : String).data = '<' :: "<<<<<<".data from rfl] at h2
  simp only [List.cons_append, List.head?_cons, Option.some.injEq] at h2
  exact absurd h2 (by decide)

theorem end_not_sep {s : String} (h : startswith s ">>>>>>>" = true) :
    startswith s "=======" = false := by
  unfold startswith at h ⊢
  rw [List.isPrefixOf_iff_prefix] at h
  rw [← Bool.not_eq_true, List.isPrefixOf_iff_prefix]
  obtain ⟨t, ht⟩ := h
  rintro ⟨u, hu⟩
  have hdp : (">>>>>>>" : String).data ++ t = ("=======" : String).data ++ u := by
    rw [ht, hu]
  have h2 := congrArg List.head? hdp
  rw [show (">>>>>>>" : String).data = '>' :: ">>>>>>".data from rfl,
    show ("=======" : String).data = '=' :: "======".data from rfl] at h2
  simp only [List.cons_append, List.head?_cons, Option.some.injEq] at h2
  exact absurd h2 (by decide)

theorem lineClean_iff {s : String} :
    lineClean s = true ↔
    startswith s "<<<<<<<" = false ∧ startswith s "=======" = false ∧
    startswith s ">>>>>>>" = false ∧ s.data.contains '\n' = false := by
  unfold lineClean
  simp [Bool.and_eq_true, Bool.not_eq_true', and_assoc]

theorem detectGo_start_step (st : String) (rest : List String)
    (i cs : Nat) (ic : Bool) (ll rl : List String)
    (hst : startswith st "<<<<<<<" = true) :
    detectGo (st :: rest) i ic cs ll rl =
      detectGo rest (i + 1) true i [] [] := by
  simp only [detectGo, hst, if_true]

theorem detectGo_sep_step (sep : String) (rest : List String)
    (i cs : Nat) (ll rl : List String)
    (hsep : startswith sep "=======" = true) :
    detectGo (sep :: rest) i true cs ll rl =
      detectGo rest (i + 1) true cs ll rl := by
  have h1 := sep_not_lt hsep
  simp only [detectGo, h1, hsep]
  simp

theorem detectGo_end_step (en : String) (rest : List String)
    (i cs : Nat) (ll rl : List String)
    (hen : startswith en ">>>>>>>" = true) :
    detectGo (en :: rest) i true cs ll rl =
      ⟨cs, i, joinNl ll, joinNl rl, none⟩ ::
        detectGo rest (i + 1) false cs [] [] := by
  have h1 := end_not_lt hen
  have h2 := end_not_sep hen
  simp only [detectGo, h1, h2, hen]
  simp

theorem detectGo_content_step (l : String) (rest : List String)
    (i cs : Nat) (acc : List String) (hc : lineClean l = true) :
    detectGo (l :: rest) i true cs acc [] =
      detectGo rest (i + 1) true cs (acc ++ [l]) [] := by
  obtain ⟨h1, h2, h3, h4⟩ := lineClean_iff.mp hc
  simp only [detectGo, h1, h2, h3]
  simp

theorem detectGo_plain_step (l : String) (rest : List String)
    (i cs : Nat) (ll rl : List String) (hc : lineClean l = true) :
    detectGo (l :: rest) i false cs ll rl =
      detectGo rest (i + 1) false cs ll rl := by
  obtain ⟨h1, h2, h3, h4⟩ := lineClean_iff.mp hc
  simp only [detectGo, h1, h2, h3]
  simp

theorem detectGo_scan_content :
    ∀ (cl : List String) (tail : List String) (i cs : Nat)
      (acc : List String), cl.all lineClean = true →
    detectGo (cl ++ tail) i true cs acc [] =
      detectGo tail (i + cl.length) true cs (acc ++ cl) [] := by
  intro cl
  induction cl with
  | nil => intro tail i cs acc _; simp
  | cons l cl ih =>
    intro tail i cs acc hall
    rw [List.all_cons, Bool.and_eq_true] at hall
    rw [List.cons_append, detectGo_content_step l _ i cs acc hall.1,
      ih _ (i + 1) cs (acc ++ [l]) hall.2]
    rw [show i + 1 + cl.length = i + (l :: cl).length by
      simp only [List.length_cons]; omega]
    rw [List.append_assoc, List.singleton_append]

theorem detectGo_parse : ∀ (items : List MergeItem) (i cs : Nat),
    items.all itemOK = true →
    detectGo (parseLines items) i false cs [] [] = blocksOf items i := by
  intro items
  induction items with
  | nil => intro i cs _; rfl
  | cons it rest ih =>
    intro i cs hall
    rw [List.all_cons, Bool.and_eq_true] at hall
    obtain ⟨hok, hrest⟩ := hall
    cases it with
    | line s =>
      show detectGo (parseLines (MergeItem.line s :: rest)) i false cs [] [] = _
      rw [show parseLines (MergeItem.line s :: rest) =
        s :: parseLines rest from rfl]
      rw [detectGo_plain_step s _ i cs [] [] hok, ih (i + 1) cs hrest]
      rfl
    | block st ls sep rs en =>
      simp only [itemOK, Bool.and_eq_true] at hok
      obtain ⟨⟨⟨⟨⟨hst, hstnl⟩, hsep, hsepnl⟩, hen, hennl⟩, hls⟩, hrs⟩ := hok
      show detectGo (parseLines (MergeItem.block st ls sep rs en :: rest))
        i false cs [] [] = _
      rw [show parseLines (MergeItem.block st ls sep rs en :: rest) =
        st :: (ls ++ sep :: (rs ++ [en])) ++ parseLines rest from rfl]
      rw [List.cons_append, detectGo_start_step st _ i cs false _ _ hst]
      rw [List.append_assoc, detectGo_scan_content ls _ (i + 1) i [] hls]
      rw [List.cons_append, detectGo_sep_step sep _ _ i _ _ hsep]
      rw [List.append_assoc, List.nil_append,
        detectGo_scan_content rs _ _ i ls hrs]
      rw [List.singleton_append, detectGo_end_step en _ _ i _ _ hen]
      rw [ih _ i hrest]
      show (⟨i, i + 1 + ls.length + 1 + rs.length, joinNl (ls ++ rs),
        joinNl [], none⟩ : ConflictMarker) ::
          blocksOf rest (i + 1 + ls.length + 1 + rs.length + 1) = _
      rw [show joinNl ([] : List String) = "" from rfl]
      rw [show i + 1 + ls.length + 1 + rs.length =
        i + ls.length + rs.length + 2 by omega]
      rw [show i + ls.length + rs.length + 2 + 1 =
        i + ls.length + rs.length + 3 by omega]
      rfl

theorem splitNlL_ne_nil : ∀ (l : List Char), splitNlL l ≠ [] := by
  intro l
  cases l with
  | nil => simp [splitNlL]
  | cons c rest =>
    rw [splitNlL]
    split
    · simp
    · split <;> simp

theorem splitNlL_append_nl : ∀ (u v : List Char),
    splitNlL (u ++ '\n' :: v) = splitNlL u ++ splitNlL v := by
  intro u
  induction u with
  | nil => intro v; rfl
  | cons c u ih =>
    intro v
    rw [List.cons_append]
    by_cases hc : c = '\n'
    · subst hc
      rw [splitNlL, if_pos rfl, ih]
      rw [show splitNlL ('\n' :: u) = [] :: splitNlL u from by
        rw [splitNlL, if_pos rfl]]
      rfl
    · rw [splitNlL, if_neg hc, ih]
      rw [show splitNlL (c :: u) = match splitNlL u with
        | [] => [[c]]
        | h :: t => (c :: h) :: t from by rw [splitNlL, if_neg hc]]
      cases hu : splitNlL u with
      | nil => exact absurd hu (splitNlL_ne_nil u)
      | cons h t => rfl

theorem splitNlL_no_nl : ∀ (l : List Char), '\n' ∉ l → splitNlL l = [l] := by
  intro l
  induction l with
  | nil => intro _; rfl
  | cons c rest ih =>
    intro h
    have hc : c ≠ '\n' := fun hh => h (hh ▸ List.mem_cons_self c rest)
    have hrest : '\n' ∉ rest := fun hh => h (List.mem_cons_of_mem c hh)
    rw [splitNlL, if_neg hc, ih hrest]

theorem joinNlL_splitNlL : ∀ (l : List Char), joinNlL (splitNlL l) = l := by
  intro l
  induction l with
  | nil => rfl
  | cons c rest ih =>
    by_cases hc : c = '\n'
    · subst hc
      rw [splitNlL, if_pos rfl]
      cases hr : splitNlL rest with
      | nil => exact absurd hr (splitNlL_ne_nil rest)
      | cons h t =>
        rw [show joinNlL ([] :: h :: t) = [] ++ '\n' :: joinNlL (h :: t)
          from rfl]
        rw [← hr, ih]
        rfl
    · rw [splitNlL, if_neg hc]
      cases hr : splitNlL rest with
      | nil => exact absurd hr (splitNlL_ne_nil rest)
      | cons h t =>
        cases t with
        | nil =>
          rw [show joinNlL [c :: h] = c :: h from rfl]
          have := ih
          rw [hr] at this
          rw [show joinNlL [h] = h from rfl] at this
          rw [this]
        | cons h2 t2 =>
          rw [show joinNlL ((c :: h) :: h2 :: t2) =
            (c :: h) ++ '\n' :: joinNlL (h2 :: t2) from rfl]
          have := ih
          rw [hr] at this
          rw [show joinNlL (h :: h2 :: t2) =
            h ++ '\n' :: joinNlL (h2 :: t2) from rfl] at this
          rw [List.cons_append, this]

theorem splitNl_joinNl_flat : ∀ (L : List String), L ≠ [] →
    splitNl (joinNl L) = L.flatMap splitNl := by
  intro L
  induction L with
  | nil => intro h; exact absurd rfl h
  | cons x L ih =>
    intro _
    cases L with
    | nil =>
      show splitNl (joinNl [x]) = splitNl x ++ []
      rw [List.append_nil]
      rfl
    | cons y L =>
      have hjoin : joinNl (x :: y :: L) =
          ⟨x.data ++ '\n' :: joinNlL ((y :: L).map String.data)⟩ := rfl
      rw [hjoin]
      show (splitNlL (x.data ++ '\n' :: joinNlL ((y :: L).map String.data))).map
        (fun l => (⟨l⟩ : String)) = _
      rw [splitNlL_append_nl, List.map_append]
      rw [show (splitNlL (joinNlL ((y :: L).map String.data))).map
          (fun l => (⟨l⟩ : String)) = splitNl (joinNl (y :: L)) from rfl]
      rw [ih (by simp)]
      rfl

theorem splitNl_single {s : String} (h : s.data.contains '\n' = false) :
    splitNl s = [s] := by
  have hnl : '\n' ∉ s.data := by simpa using h
  show (splitNlL s.data).map (fun l => (⟨l⟩ : String)) = [s]
  rw [splitNlL_no_nl s.data hnl]
  rfl

theorem blocksOf_length : ∀ (items : List MergeItem) (i : Nat),
    (blocksOf items i).length = countBlocks items := by
  intro items
  induction items with
  | nil => intro i; rfl
  | cons it rest ih =>
    intro i
    cases it with
    | line s =>
      simp only [blocksOf, countBlocks, List.countP_cons]
      rw [ih]
      rfl
    | block st ls sep rs en =>
      simp only [blocksOf, countBlocks, List.countP_cons, List.length_cons]
      rw [ih]
      rfl

theorem parseLines_append (A B : List MergeItem) :
    parseLines (A ++ B) = parseLines A ++ parseLines B := by
  unfold parseLines
  exact List.flatMap_append A B itemLines

theorem parseLines_map_line (cl : List String) :
    parseLines (cl.map MergeItem.line) = cl := by
  induction cl with
  | nil => rfl
  | cons l cl ih =>
    show l :: parseLines (cl.map MergeItem.line) = l :: cl
    rw [ih]

theorem countBlocks_append (A B : List MergeItem) :
    countBlocks (A ++ B) = countBlocks A + countBlocks B :=
  List.countP_append _ _ _

theorem countBlocks_map_line (cl : List String) :
    countBlocks (cl.map MergeItem.line) = 0 := by
  induction cl with
  | nil => rfl
  | cons l cl ih =>
    simp only [List.map_cons, countBlocks, List.countP_cons] at *
    simp [ih]

theorem lineClean_nl_free {s : String} (h : lineClean s = true) :
    s.data.contains '\n' = false :=
  (lineClean_iff.mp h).2.2.2

theorem parseLines_nl_free : ∀ (items : List MergeItem),
    items.all itemOK = true →
    ∀ l ∈ parseLines items, l.data.contains '\n' = false := by
  intro items
  induction items with
  | nil => intro _ l hl; exact absurd hl (List.not_mem_nil l)
  | cons it rest ih =>
    intro hall l hl
    rw [List.all_cons, Bool.and_eq_true] at hall
    rw [show parseLines (it :: rest) = itemLines it ++ parseLines rest
      from rfl] at hl
    rcases List.mem_append.mp hl with hmem | hmem
    · cases it with
      | line s =>
        rw [show itemLines (MergeItem.line s) = [s] from rfl] at hmem
        rcases List.mem_singleton.mp hmem with rfl
        exact lineClean_nl_free hall.1
      | block st ls sep rs en =>
        have hok := hall.1
        simp only [itemOK, Bool.and_eq_true] at hok
        obtain ⟨⟨⟨⟨⟨hst, hstnl⟩, hsep, hsepnl⟩, hen, hennl⟩, hls⟩, hrs⟩ := hok
        rw [show itemLines (MergeItem.block st ls sep rs en) =
          st :: (ls ++ sep :: (rs ++ [en])) from rfl] at hmem
        rcases List.mem_cons.mp hmem with rfl | hmem
        · simpa using hstnl
        rcases List.mem_append.mp hmem with hmem | hmem
        · exact lineClean_nl_free (List.all_eq_true.mp hls l hmem)
        rcases List.mem_cons.mp hmem with rfl | hmem
        · simpa using hsepnl
        rcases List.mem_append.mp hmem with hmem | hmem
        · exact lineClean_nl_free (List.all_eq_true.mp hrs l hmem)
        · rcases List.mem_singleton.mp hmem with rfl
          simpa using hennl
    · exact ih hall.2 l hmem

theorem flatMap_splitNl_id : ∀ (L : List String),
    (∀ l ∈ L, l.data.contains '\n' = false) → L.flatMap splitNl = L := by
  intro L
  induction L with
  | nil => intro _; rfl
  | cons l L ih =>
    intro h
    rw [List.flatMap_cons, splitNl_single (h l (List.mem_cons_self l L)),
      ih (fun x hx => h x (List.mem_cons_of_mem l hx))]
    rfl

theorem splitNl_joinNl_clean {cl : List String} (hne : cl ≠ [])
    (h : ∀ l ∈ cl, l.data.contains '\n' = false) :
    splitNl (joinNl cl) = cl := by
  rw [splitNl_joinNl_flat cl hne]
  exact flatMap_splitNl_id cl h

theorem splitNl_append_nl_empty (u : String) :
    splitNl (u ++ "\n" ++ "") = splitNl u ++ [""] := by
  show (splitNlL ((u ++ "\n" ++ "") : String).data).map
    (fun l => (⟨l⟩ : String)) = _
  rw [String.data_append, String.data_append]
  rw [show ("\n" : String).data = ['\n'] from rfl,
    show ("" : String).data = [] from rfl, List.append_assoc]
  rw [show (['\n'] ++ [] : List Char) = '\n' :: [] from rfl]
  rw [splitNlL_append_nl]
  rw [List.map_append]
  rfl

theorem blocksOf_get : ∀ (items : List MergeItem) (idx i : Nat),
    idx < (blocksOf items i).length →
    ∃ pre st ls sep rs en post,
      items = pre ++ MergeItem.block st ls sep rs en :: post ∧
      countBlocks pre = idx ∧
      (blocksOf items i).getD idx default =
        ⟨i + (parseLines pre).length,
         i + (parseLines pre).length + ls.length + rs.length + 2,
         joinNl (ls ++ rs), "", none⟩ := by
  intro items
  induction items with
  | nil => intro idx i h; exact absurd h (by simp [blocksOf])
  | cons it rest ih =>
    intro idx i h
    cases it with
    | line s =>
      obtain ⟨pre, st, ls, sep, rs, en, post, heq, hcount, hget⟩ :=
        ih idx (i + 1) (by simpa [blocksOf] using h)
      refine ⟨MergeItem.line s :: pre, st, ls, sep, rs, en, post,
        by rw [List.cons_append, heq], ?_, ?_⟩
      · simpa [countBlocks, List.countP_cons] using hcount
      · rw [show blocksOf (MergeItem.line s :: rest) i =
          blocksOf rest (i + 1) from rfl, hget]
        have hlen : (parseLines (MergeItem.line s :: pre)).length =
            (parseLines pre).length + 1 := by
          rw [show parseLines (MergeItem.line s :: pre) =
            s :: parseLines pre from rfl]
          rfl
        rw [hlen]
        congr 1 <;> omega
    | block st0 ls0 sep0 rs0 en0 =>
      cases idx with
      | zero =>
        refine ⟨[], st0, ls0, sep0, rs0, en0, rest, rfl, rfl, ?_⟩
        rw [show blocksOf (MergeItem.block st0 ls0 sep0 rs0 en0 :: rest) i =
          (⟨i, i + ls0.length + rs0.length + 2, joinNl (ls0 ++ rs0), "",
            none⟩ : ConflictMarker) ::
            blocksOf rest (i + ls0.length + rs0.length + 3) from rfl]
        rw [List.getD_cons_zero]
        simp only [ConflictMarker.mk.injEq, and_true]
        exact ⟨by simp [parseLines], by simp [parseLines]⟩
      | succ idx =>
        have h' : idx < (blocksOf rest
            (i + ls0.length + rs0.length + 3)).length := by
          rw [show blocksOf (MergeItem.block st0 ls0 sep0 rs0 en0 :: rest) i =
            (⟨i, i + ls0.length + rs0.length + 2, joinNl (ls0 ++ rs0), "",
              none⟩ : ConflictMarker) ::
              blocksOf rest (i + ls0.length + rs0.length + 3) from rfl,
            List.length_cons] at h
          omega
        obtain ⟨pre, st, ls, sep, rs, en, post, heq, hcount, hget⟩ :=
          ih idx (i + ls0.length + rs0.length + 3) h'
        refine ⟨MergeItem.block st0 ls0 sep0 rs0 en0 :: pre, st, ls, sep, rs,
          en, post, by rw [List.cons_append, heq], ?_, ?_⟩
        · rw [show countBlocks (MergeItem.block st0 ls0 sep0 rs0 en0 :: pre) =
            countBlocks pre + 1 from by simp [countBlocks, List.countP_cons]]
          omega
        · rw [show blocksOf (MergeItem.block st0 ls0 sep0 rs0 en0 :: rest) i =
            (⟨i, i + ls0.length + rs0.length + 2, joinNl (ls0 ++ rs0), "",
              none⟩ : ConflictMarker) ::
              blocksOf rest (i + ls0.length + rs0.length + 3) from rfl]
          rw [List.getD_cons_succ, hget]
          have hlen : (parseLines
              (MergeItem.block st0 ls0 sep0 rs0 en0 :: pre)).length =
              (parseLines pre).length + (ls0.length + rs0.length + 3) := by
            rw [show parseLines (MergeItem.block st0 ls0 sep0 rs0 en0 :: pre) =
              (st0 :: (ls0 ++ sep0 :: (rs0 ++ [en0]))) ++ parseLines pre
              from rfl]
            simp only [List.length_append, List.length_cons,
              List.length_nil]
            omega
          rw [hlen]
          congr 1 <;> omega

theorem detectConflicts_items (merged : String) (items : List MergeItem)
    (hitems : splitNl merged = parseLines items)
    (hOK : items.all itemOK = true) :
    detectConflicts merged = blocksOf items 0 := by
  unfold detectConflicts
  rw [hitems]
  exact detectGo_parse items 0 0 hOK

theorem resolve_step (merged : String) (items : List MergeItem)
    (hitems : splitNl merged = parseLines items)
    (hOK : items.all itemOK = true)
    (idx : Nat) (choice : Resolution)
    (hidx : idx < (detectConflicts merged).length) :
    ∃ items' : List MergeItem,
      splitNl (resolveConflictAt merged idx choice) = parseLines items' ∧
      items'.all itemOK = true ∧
      countBlocks items' + 1 = countBlocks items := by
  have hdet : detectConflicts merged = blocksOf items 0 :=
    detectConflicts_items merged items hitems hOK
  have hidx' : idx < (blocksOf items 0).length := by rwa [hdet] at hidx
  obtain ⟨pre, st, ls, sep, rs, en, post, heq, hcount, hget⟩ :=
    blocksOf_get items idx 0 hidx'
  have hOKsplit : pre.all itemOK = true ∧
      itemOK (MergeItem.block st ls sep rs en) = true ∧
      post.all itemOK = true := by
    rw [heq, List.all_append, List.all_cons] at hOK
    simp only [Bool.and_eq_true] at hOK
    exact ⟨hOK.1, hOK.2.1, hOK.2.2⟩
  obtain ⟨hOKpre, hOKblk, hOKpost⟩ := hOKsplit
  have hblk := hOKblk
  simp only [itemOK, Bool.and_eq_true] at hblk
  obtain ⟨⟨⟨⟨⟨hst, hstnl⟩, hsep, hsepnl⟩, hen, hennl⟩, hls⟩, hrs⟩ := hblk
  have hlsrs_nl : ∀ l ∈ ls ++ rs, l.data.contains '\n' = false := by
    intro l hl
    rcases List.mem_append.mp hl with h | h
    · exact lineClean_nl_free (List.all_eq_true.mp hls l h)
    · exact lineClean_nl_free (List.all_eq_true.mp hrs l h)
  have hlsrs_clean : (ls ++ rs).all lineClean = true := by
    rw [List.all_append]
    simp [hls, hrs]
  have hsplit_left : ∃ cl : List String,
      splitNl (joinNl (ls ++ rs)) = cl ∧ cl.all lineClean = true := by
    by_cases h0 : (ls ++ rs) = []
    · rw [h0]
      exact ⟨[""], rfl, by decide⟩
    · exact ⟨ls ++ rs, splitNl_joinNl_clean h0 hlsrs_nl, hlsrs_clean⟩
  obtain ⟨clL, hclL, hclLclean⟩ := hsplit_left
  have hsplit_nc : ∃ cl : List String,
      splitNl (match choice with
        | Resolution.left => joinNl (ls ++ rs)
        | Resolution.right => ""
        | Resolution.both => joinNl (ls ++ rs) ++ "\n" ++ "") = cl ∧
      cl.all lineClean = true := by
    cases choice
    · exact ⟨clL, hclL, hclLclean⟩
    · exact ⟨[""], rfl, by decide⟩
    · refine ⟨clL ++ [""], ?_, ?_⟩
      · show splitNl (joinNl (ls ++ rs) ++ "\n" ++ "") = clL ++ [""]
        rw [splitNl_append_nl_empty, hclL]
      · rw [List.all_append, hclLclean]
        decide
  obtain ⟨cl, hcl, hclclean⟩ := hsplit_nc
  have hstart : 0 + (parseLines pre).length < (parseLines items).length := by
    rw [heq, parseLines_append]
    rw [show parseLines (MergeItem.block st ls sep rs en :: post) =
      itemLines (MergeItem.block st ls sep rs en) ++ parseLines post
      from rfl]
    simp only [List.length_append, itemLines, List.length_cons]
    omega
  have htake : (parseLines items).take (0 + (parseLines pre).length) =
      parseLines pre := by
    rw [heq, parseLines_append,
      show (0 : Nat) + (parseLines pre).length = (parseLines pre).length
        from by omega]
    exact List.take_left _ _
  have hdrop : (parseLines items).drop
      (0 + (parseLines pre).length + ls.length + rs.length + 2 + 1) =
      parseLines post := by
    rw [heq, parseLines_append]
    rw [show parseLines (MergeItem.block st ls sep rs en :: post) =
      itemLines (MergeItem.block st ls sep rs en) ++ parseLines post
      from rfl]
    rw [← List.append_assoc]
    rw [show (0 : Nat) + (parseLines pre).length + ls.length + rs.length +
        2 + 1 =
      (parseLines pre ++ itemLines (MergeItem.block st ls sep rs en)).length
      from by
        simp only [List.length_append, itemLines, List.length_cons,
          List.length_nil]
        omega]
    exact List.drop_left _ _
  have hres : resolveConflictAt merged idx choice =
      joinNl (parseLines pre ++
        [match choice with
         | Resolution.left => joinNl (ls ++ rs)
         | Resolution.right => ""
         | Resolution.both => joinNl (ls ++ rs) ++ "\n" ++ ""] ++
        parseLines post) := by
    simp only [resolveConflictAt, hdet, hget, hitems]
    rw [if_pos hidx', if_pos hstart, htake, hdrop]
  refine ⟨pre ++ cl.map MergeItem.line ++ post, ?_, ?_, ?_⟩
  · rw [hres]
    rw [splitNl_joinNl_flat _ (by simp)]
    simp only [List.flatMap_append, List.flatMap_cons, List.flatMap_nil,
      List.append_nil]
    rw [flatMap_splitNl_id (parseLines pre) (parseLines_nl_free pre hOKpre)]
    rw [flatMap_splitNl_id (parseLines post) (parseLines_nl_free post hOKpost)]
    rw [hcl, parseLines_append, parseLines_append, parseLines_map_line]
  · rw [List.all_append, List.all_append]
    simp [hOKpre, hOKpost, List.all_map, Function.comp, hclclean]
    exact List.all_eq_true.mp hclclean
  · rw [countBlocks_append, countBlocks_append, countBlocks_map_line, heq,
      countBlocks_append]
    rw [show countBlocks (MergeItem.block st ls sep rs en :: post) =
      countBlocks post + 1 from by simp [countBlocks, List.countP_cons]]
    omega

/-- A whole resolution session: each step resolves the conflict at the
given index with the given choice (the content is re-scanned after every
step, as in the GUI). -/
def applySteps (merged : String) (steps : List (Nat × Resolution)) : String :=
  steps.foldl (fun m p => resolveConflictAt m p.1 p.2) merged

theorem applySteps_spec : ∀ (steps : List (Nat × Resolution))
    (merged : String) (items : List MergeItem),
    splitNl merged = parseLines items → items.all itemOK = true →
    steps.length = (detectConflicts merged).length →
    (∀ k, k < steps.length → (steps.getD k default).1 < steps.length - k) →
    ∃ items' : List MergeItem,
      splitNl (applySteps merged steps) = parseLines items' ∧
      items'.all itemOK = true ∧
      countBlocks items' = 0 := by
  intro steps
  induction steps with
  | nil =>
    intro merged items hitems hOK hlen _
    refine ⟨items, hitems, hOK, ?_⟩
    have hdet := detectConflicts_items merged items hitems hOK
    rw [hdet, blocksOf_length] at hlen
    simp only [List.length_nil] at hlen
    omega
  | cons p steps ih =>
    intro merged items hitems hOK hlen hvalid
    have hidx : p.1 < (detectConflicts merged).length := by
      have h0 := hvalid 0 (by simp)
      rw [List.getD_cons_zero] at h0
      simp only [List.length_cons] at h0 hlen
      omega
    obtain ⟨items1, h1, h2, h3⟩ :=
      resolve_step merged items hitems hOK p.1 p.2 hidx
    have hdet1 := detectConflicts_items _ items1 h1 h2
    have hdet := detectConflicts_items merged items hitems hOK
    have hlen1 : steps.length =
        (detectConflicts (resolveConflictAt merged p.1 p.2)).length := by
      rw [hdet1, blocksOf_length]
      rw [hdet, blocksOf_length] at hlen
      simp only [List.length_cons] at hlen
      omega
    have hvalid1 : ∀ k, k < steps.length →
        (steps.getD k default).1 < steps.length - k := by
      intro k hk
      have hv := hvalid (k + 1) (by simp only [List.length_cons]; omega)
      rw [List.getD_cons_succ] at hv
      simp only [List.length_cons] at hv
      omega
    rw [show applySteps merged (p :: steps) =
      applySteps (resolveConflictAt merged p.1 p.2) steps from rfl]
    exact ih _ items1 h1 h2 hlen1 hvalid1

theorem parseLines_no_blocks_clean : ∀ (items : List MergeItem),
    items.all itemOK = true → countBlocks items = 0 →
    ∀ l ∈ parseLines items, lineClean l = true := by
  intro items
  induction items with
  | nil => intro _ _ l hl; exact absurd hl (List.not_mem_nil l)
  | cons it rest ih =>
    intro hOK hcount l hl
    rw [List.all_cons, Bool.and_eq_true] at hOK
    cases it with
    | line s =>
      rw [show parseLines (MergeItem.line s :: rest) = s :: parseLines rest
        from rfl] at hl
      rcases List.mem_cons.mp hl with rfl | hl'
      · exact hOK.1
      · refine ih hOK.2 ?_ l hl'
        simp only [countBlocks, List.countP_cons] at hcount ⊢
        omega
    | block st ls sep rs en =>
      exfalso
      rw [show countBlocks (MergeItem.block st ls sep rs en :: rest) =
        countBlocks rest + 1 from by simp [countBlocks, List.countP_cons]]
        at hcount
      omega

/-- C7 amended: starting from well-formed merged content (a sequence of
marker-free plain lines and well-formed conflict blocks), resolving every
detected conflict — any order of valid indices, any choices in
{Left, Right, Both} — leaves content in which no conflicts are detected,
`is_fully_resolved()` returns true, and no line starts with `<<<<<<<`,
`=======` or `>>>>>>>`.  (For arbitrary content the original claim fails:
see the counterexample — a stray separator line is not detected as a
conflict, `is_fully_resolved()` is vacuously true, yet the marker line
remains.) -/
theorem three_way_resolution_clears_markers
    (merged : String) (items : List MergeItem)
    (hitems : splitNl merged = parseLines items)
    (hOK : items.all itemOK = true)
    (steps : List (Nat × Resolution))
    (hlen : steps.length = (detectConflicts merged).length)
    (hvalid : ∀ k, k < steps.length →
      (steps.getD k default).1 < steps.length - k) :
    detectConflicts (applySteps merged steps) = [] ∧
    isFullyResolved (detectConflicts (applySteps merged steps)) = true ∧
    ∀ l ∈ splitNl (applySteps merged steps),
      startswith l "<<<<<<<" = false ∧ startswith l "=======" = false ∧
      startswith l ">>>>>>>" = false := by
  obtain ⟨items', h1, h2, h3⟩ :=
    applySteps_spec steps merged items hitems hOK hlen hvalid
  have hdet := detectConflicts_items _ items' h1 h2
  have hempty : blocksOf items' 0 = [] := by
    have hl := blocksOf_length items' 0
    rw [h3] at hl
    exact List.length_eq_zero.mp hl
  refine ⟨by rw [hdet, hempty], by rw [hdet, hempty]; rfl, ?_⟩
  intro l hl
  rw [h1] at hl
  have hclean := parseLines_no_blocks_clean items' h2 h3 l hl
  obtain ⟨a, b, c, -⟩ := lineClean_iff.mp hclean
  exact ⟨a, b, c⟩

/-- C7 counterexample: on `merged_content = "======="` there are no
detected conflicts, so every detected conflict is (vacuously) resolved and
`is_fully_resolved()` returns true, yet the content still contains a line
starting with `=======`. -/
theorem three_way_stray_marker_counterexample :
    detectConflicts "=======" = [] ∧
    isFullyResolved (detectConflicts "=======") = true ∧
    (splitNl "=======").any (fun l => startswith l "=======") = true := by
  decide

/-- Witness for `three_way_resolution_clears_markers` on one concrete
conflict block resolved with `left`. -/
theorem three_way_resolution_clears_markers_witness :
    detectConflicts (applySteps "<<<<<<< HEAD\nA\n=======\nB\n>>>>>>> r"
      [(0, Resolution.left)]) = [] ∧
    isFullyResolved (detectConflicts
      (applySteps "<<<<<<< HEAD\nA\n=======\nB\n>>>>>>> r"
        [(0, Resolution.left)])) = true ∧
    ∀ l ∈ splitNl (applySteps "<<<<<<< HEAD\nA\n=======\nB\n>>>>>>> r"
        [(0, Resolution.left)]),
      startswith l "<<<<<<<" = false ∧ startswith l "=======" = false ∧
      startswith l ">>>>>>>" = false :=
  three_way_resolution_clears_markers
    "<<<<<<< HEAD\nA\n=======\nB\n>>>>>>> r"
    [MergeItem.block "<<<<<<< HEAD" ["A"] "=======" ["B"] ">>>>>>> r"]
    (by decide) (by decide) [(0, Resolution.left)] (by decide) (by decide)

end MergeTool
